import Mathlib

/-!
Calendar manager (`Exercise_01_Calendar.c`)

A shallow embedding of the note store of the calendar exercise: seven
doubly-linked lists of notes, one per weekday, kept in a C heap.

* A pointer is `Option Nat`: `none` is `NULL`, `some a` is the address `a`.
* The heap is a list of cells; cell `a` is `some n` while a `Note` is allocated
  at address `a`, and `none` once it is freed (or was never initialised).
* A C string is the list of its characters before the terminating zero, so
  the text of a note holds no NUL byte.  A scan hands on the characters it
  stored as the string in its buffer, which is what `strlen` and `strcpy` see
  as long as the line read holds no NUL byte; the theorem about arbitrary file
  contents asks for text lines without one.
* Every dereference of a pointer that is `NULL`, dangling or out of bounds is
  undefined behaviour in C and is reported as `Err.undefined`.
* Every `while (true)` loop of the source takes a fuel argument; running out
  of fuel (`Err.fuel`) stands for a loop that has not yet finished.
-/

namespace Calendar

/-- Number of buckets of the store, `#define DAYS_IN_WEEK 7`. -/
def DAYS_IN_WEEK : Nat := 7

/-- Size of the text buffers, `#define MAX_NOTE_LENGTH 100`. -/
def MAX_NOTE_LENGTH : Nat := 100

/-- A C pointer to a `Note`: `none` is `NULL`. -/
abbrev Ptr := Option Nat

/-- The record `struct Note` of the source: `text`, `day`, `next`, `prev`. -/
structure Note where
  text : List Char
  day : Int
  next : Ptr
  prev : Ptr
deriving DecidableEq, Repr

/-- The heap: cell `a` holds the note allocated at address `a`, if any. -/
abbrev Heap := List (Option Note)

/-- Ways in which a run of the embedded code fails to produce a value. -/
inductive Err where
  | undefined
  | fuel
deriving DecidableEq, Repr

/-- Result of running embedded code. -/
abbrev M (α : Type) := Except Err α

deriving instance DecidableEq for Except

/-- The note stored at address `a`, when that address is allocated. -/
def cell (h : Heap) (a : Nat) : Option Note := (h.get? a).join

/-- Overwrite the note at address `a`. -/
def store (h : Heap) (a : Nat) (n : Note) : Heap := h.set a (some n)

/-- Assignment `p->next = q` on an allocated note. -/
def set_next (h : Heap) (a : Nat) (q : Ptr) : M Heap :=
  match cell h a with
  | none => .error .undefined
  | some n => .ok (store h a { n with next := q })

/-- Assignment `p->prev = q` on an allocated note. -/
def set_prev (h : Heap) (a : Nat) (q : Ptr) : M Heap :=
  match cell h a with
  | none => .error .undefined
  | some n => .ok (store h a { n with prev := q })

/-- Source `free_note`: releases the text and the note; the cell becomes
unallocated.  Reading `note->text` needs the note to be allocated. -/
def free_note (h : Heap) (a : Nat) : M Heap :=
  match cell h a with
  | none => .error .undefined
  | some _ => .ok (h.set a none)

/-- The `while (true)` loop of `get_last_note`, started at `current`. -/
def get_last_note_loop (h : Heap) : Nat → Nat → M Nat
  | 0, _ => .error .fuel
  | fuel + 1, current =>
    match cell h current with
    | none => .error .undefined
    | some n =>
      match n.next with
      | none => .ok current
      | some nx => get_last_note_loop h fuel nx

/-- Source `get_last_note`: the last item of a linked list, `NULL` when the
list is empty. -/
def get_last_note (fuel : Nat) (h : Heap) (first_note : Ptr) : M Ptr :=
  match first_note with
  | none => .ok none
  | some a =>
    match get_last_note_loop h fuel a with
    | .error e => .error e
    | .ok l => .ok (some l)

/-- Source `add_note`: appends `note_to_add` after the last note of the list
starting at `first_note`; returns the head of the list and the new heap. -/
def add_note (fuel : Nat) (h : Heap) (first_note note_to_add : Ptr) : M (Ptr × Heap) :=
  match note_to_add with
  | none => .ok (first_note, h)
  | some b =>
    match first_note with
    | none => .ok (some b, h)
    | some a =>
      match get_last_note_loop h fuel a with
      | .error e => .error e
      | .ok last_note =>
        match set_next h last_note (some b) with
        | .error e => .error e
        | .ok h1 =>
          match set_prev h1 b (some last_note) with
          | .error e => .error e
          | .ok h2 => .ok (some a, h2)

/-- Calls `add_note` once for every address of `notes`, in order, each time on
the head returned by the previous call. -/
def add_notes (fuel : Nat) : Heap → Ptr → List Nat → M (Ptr × Heap)
  | h, first, [] => .ok (first, h)
  | h, first, b :: rest =>
    match add_note fuel h first (some b) with
    | .error e => .error e
    | .ok (first1, h1) => add_notes fuel h1 first1 rest

/-- The list starting at pointer `p` consists of the notes at the addresses
`l`, in this order, linked by `next`, and ends with a `NULL` `next`. -/
def IsList (h : Heap) : Ptr → List Nat → Prop
  | p, [] => p = none
  | p, a :: t => p = some a ∧ ∃ n, cell h a = some n ∧ IsList h n.next t

/-- The doubly-linked list starting at `p`, whose first note has the back-link
`pr`: the notes at the addresses `l` in this order, each `prev` pointing to
the note before it. -/
def IsDList (h : Heap) : Ptr → Ptr → List Nat → Prop
  | _, p, [] => p = none
  | pr, p, a :: t =>
    p = some a ∧ ∃ n, cell h a = some n ∧ n.prev = pr ∧ IsDList h (some a) n.next t

/-- The payload of a note: what the links do not touch. -/
def payload (n : Note) : List Char × Int := (n.text, n.day)

/-- A note is unlinked when both its links are `NULL`. -/
def Unlinked (h : Heap) (a : Nat) : Prop :=
  ∃ n, cell h a = some n ∧ n.next = none ∧ n.prev = none

/-- Reading through a pointer: undefined for `NULL` and for an address that
holds no note. -/
def deref (h : Heap) (p : Ptr) : M Note :=
  match p with
  | none => .error .undefined
  | some a =>
    match cell h a with
    | none => .error .undefined
    | some n => .ok n

/-- Source `delete_note`: unlinks `to_delete` from the list starting at
`first_note` and frees it; returns the head of the list and the new heap.
The `printf` of `to_delete->text` reads the note, so it must be allocated. -/
def delete_note (h : Heap) (first_note to_delete : Ptr) : M (Ptr × Heap) :=
  match to_delete with
  | none => .ok (first_note, h)
  | some t => do
    let nt ← deref h (some t)
    match nt.prev with
    | none =>
      match first_note with
      | none => .error .undefined
      | some f => do
        let nf ← deref h (some f)
        match nf.next with
        | some s => do
          let h1 ← set_prev h s none
          let nf1 ← deref h1 (some f)
          let h2 ← free_note h1 f
          pure (nf1.next, h2)
        | none => do
          let h1 ← free_note h f
          pure (none, h1)
    | some p =>
      match nt.next with
      | none => do
        let h1 ← set_next h p none
        let h2 ← free_note h1 t
        pure (first_note, h2)
      | some s => do
        let h1 ← set_next h p (some s)
        let h2 ← free_note h1 t
        pure (first_note, h2)

/-- Read of `notes_by_day[i]`: the array has one entry per list element, and
an index outside it is undefined. -/
def bucket (notes_by_day : List Ptr) (i : Int) : M Ptr :=
  if 0 ≤ i then
    match notes_by_day.get? i.toNat with
    | some p => .ok p
    | none => .error .undefined
  else .error .undefined

/-- The `for (i; i < index; i++)` loop of `find_by_index`; the first argument
is the number of iterations left. -/
def find_by_index_loop (h : Heap) : Nat → Nat → M Nat
  | 0, current => .ok current
  | k + 1, current =>
    match cell h current with
    | none => .error .undefined
    | some n =>
      match n.next with
      | none => .ok current
      | some nx => find_by_index_loop h k nx

/-- Source `find_by_index`. -/
def find_by_index (h : Heap) (notes_by_day : List Ptr) (day : Int) (index : Int) : M Ptr := do
  let first_note ← bucket notes_by_day (day - 1)
  match first_note with
  | none => pure none
  | some a =>
    let r ← find_by_index_loop h index.toNat a
    pure (some r)

/-- C library `strstr`, as the offset of the first occurrence of `needle` in
`hay` (`none` for the `NULL` result). -/
def strstr : List Char → List Char → Option Nat
  | [], needle => if needle = [] then some 0 else none
  | c :: hay, needle =>
    if needle <+: c :: hay then some 0 else (strstr hay needle).map (· + 1)

/-- C library `strcmp`: zero, negative or positive. -/
def strcmp : List Char → List Char → Int
  | [], [] => 0
  | [], _ :: _ => -1
  | _ :: _, [] => 1
  | c :: s, d :: t => if c = d then strcmp s t else if c < d then -1 else 1

/-- The `while (true)` loop that `find_by_keyword` and `find_by_text` run on one
bucket, with the test of the note's text as a parameter: `some a` when the note
at `a` passes the test (the `return current`), `none` at the `break`. -/
def find_loop (test : List Char → Bool) (h : Heap) : Nat → Nat → M (Option Nat)
  | 0, _ => .error .fuel
  | fuel + 1, current =>
    match cell h current with
    | none => .error .undefined
    | some n =>
      if test n.text then .ok (some current)
      else
        match n.next with
        | none => .ok none
        | some nx => find_loop test h fuel nx

/-- The `for (i; i < DAYS_IN_WEEK; i++)` loop that `find_by_keyword` and
`find_by_text` share; the first argument is the number of buckets left and the
second the index `i`. -/
def find_buckets (test : List Char → Bool) (fuel : Nat) (h : Heap) (notes_by_day : List Ptr) :
    Nat → Nat → M Ptr
  | 0, _ => .ok none
  | k + 1, i => do
    let first_note ← bucket notes_by_day i
    match first_note with
    | none => find_buckets test fuel h notes_by_day k (i + 1)
    | some a =>
      let r ← find_loop test h fuel a
      match r with
      | some found => pure (some found)
      | none => find_buckets test fuel h notes_by_day k (i + 1)

/-- Source `find_by_keyword`: the test is `strstr(current->text, keyword) != NULL`. -/
def find_by_keyword (fuel : Nat) (h : Heap) (notes_by_day : List Ptr) (keyword : List Char) :
    M Ptr :=
  find_buckets (fun text => (strstr text keyword).isSome) fuel h notes_by_day DAYS_IN_WEEK 0

/-- Source `find_by_text`: the test is `strcmp(current->text, text) == 0`. -/
def find_by_text (fuel : Nat) (h : Heap) (notes_by_day : List Ptr) (text : List Char) : M Ptr :=
  find_buckets (fun t => strcmp t text == 0) fuel h notes_by_day DAYS_IN_WEEK 0

/-- A store is well formed with the bucket contents `contents` when it has
`DAYS_IN_WEEK` buckets and bucket `i` is the list of the notes `contents[i]`. -/
def WfStore (h : Heap) (notes_by_day : List Ptr) (contents : List (List Nat)) : Prop :=
  notes_by_day.length = DAYS_IN_WEEK ∧ List.Forall₂ (IsList h) notes_by_day contents

/-- The text of the note at address `a` (empty when there is none). -/
def text_at (h : Heap) (a : Nat) : List Char :=
  match cell h a with
  | some n => n.text
  | none => []

/-- The day field of the note at address `a` (zero when there is none). -/
def day_at (h : Heap) (a : Nat) : Int :=
  match cell h a with
  | some n => n.day
  | none => 0

/-- Three unlinked notes at the addresses 0, 1 and 2. -/
def heap3 : Heap :=
  [some ⟨"Buy milk".toList, 2, none, none⟩, some ⟨"Call mom".toList, 2, none, none⟩,
   some ⟨"Rest".toList, 2, none, none⟩]

/-- The list 0 → 1 → 2 that three calls of `add_note` build from `heap3`. -/
def heap3_linked : Heap :=
  [some ⟨"Buy milk".toList, 2, some 1, none⟩, some ⟨"Call mom".toList, 2, some 2, some 0⟩,
   some ⟨"Rest".toList, 2, none, some 1⟩]

/-- Two days: the Sunday list 0 → 1 and the Monday list 2 → 3. -/
def heap_two_days : Heap :=
  [some ⟨"Rest".toList, 1, some 1, none⟩, some ⟨"Read".toList, 1, none, some 0⟩,
   some ⟨"Buy milk".toList, 2, some 3, none⟩, some ⟨"Call mom".toList, 2, none, some 2⟩]

/-- The store of `heap_two_days`. -/
def store_two_days : List Ptr := [some 0, some 2, none, none, none, none, none]

/-! ### Notes on the heap: allocation and counting -/

/-- Source `create_note`: allocates a note at a fresh address (the end of the
heap), stores `day + 1` and a copy of `text`.  The source assigns neither
`next` nor `prev`, so both keep the indeterminate contents `junk` of the block
that `malloc` returned.  A failing `malloc` and the reuse of freed addresses
are not modelled. -/
def create_note (h : Heap) (junk : Ptr × Ptr) (text : List Char) (day : Int) : Nat × Heap :=
  (h.length, h ++ [some { text := text, day := day + 1, next := junk.1, prev := junk.2 }])

/-- The `while (true)` loop of `get_amount_notes`. -/
def get_amount_notes_loop (h : Heap) : Nat → Nat → Int → M Int
  | 0, _, _ => .error .fuel
  | fuel + 1, note, amount =>
    match cell h note with
    | none => .error .undefined
    | some n =>
      match n.next with
      | none => .ok (amount + 1)
      | some nx => get_amount_notes_loop h fuel nx (amount + 1)

/-- Source `get_amount_notes`. -/
def get_amount_notes (fuel : Nat) (h : Heap) (first_note : Ptr) : M Int :=
  match first_note with
  | none => .ok 0
  | some a => get_amount_notes_loop h fuel a 0

/-- The `for` loop of `get_amount_notes_by_day`: buckets left, index `i`,
running total. -/
def get_amount_notes_by_day_loop (fuel : Nat) (h : Heap) (notes : List Ptr) :
    Nat → Nat → Int → M Int
  | 0, _, total => .ok total
  | k + 1, i, total => do
    let first_note ← bucket notes i
    let amount ← get_amount_notes fuel h first_note
    get_amount_notes_by_day_loop fuel h notes k (i + 1) (total + amount)

/-- Source `get_amount_notes_by_day`. -/
def get_amount_notes_by_day (fuel : Nat) (h : Heap) (notes : List Ptr) : M Int :=
  get_amount_notes_by_day_loop fuel h notes DAYS_IN_WEEK 0 0

/-! ### Files -/

/-- Output of `printf("%d", d)`: the decimal digits, with a minus sign for a
negative number. -/
def fmt_d (d : Int) : List Char := (toString d).toList

/-- The `while (true)` loop of `save_to_file` on one bucket; `out` is what has
been written to the file so far.  Every write is taken to succeed (`ferror`
stays false). -/
def save_to_file_loop (h : Heap) : Nat → Nat → List Char → M (List Char)
  | 0, _, _ => .error .fuel
  | fuel + 1, current, out =>
    match cell h current with
    | none => .error .undefined
    | some n =>
      match n.next with
      | none => .ok (out ++ (fmt_d n.day ++ ['\n']) ++ (n.text ++ ['\n']))
      | some nx =>
        save_to_file_loop h fuel nx (out ++ (fmt_d n.day ++ ['\n']) ++ (n.text ++ ['\n']))

/-- The `for (i; i < DAYS_IN_WEEK; i++)` loop of `save_to_file`: buckets left,
index `i`, and what has been written so far. -/
def save_to_file_buckets (fuel : Nat) (h : Heap) (notes : List Ptr) :
    Nat → Nat → List Char → M (List Char)
  | 0, _, out => .ok out
  | k + 1, i, out => do
    let first_note ← bucket notes i
    match first_note with
    | none => save_to_file_buckets fuel h notes k (i + 1) out
    | some a =>
      let out1 ← save_to_file_loop h fuel a out
      save_to_file_buckets fuel h notes k (i + 1) out1

/-- Source `save_to_file`, from the `fopen` on.  `opened` tells whether
`fopen(filename, "w")` succeeded; the result is the contents of the file that
was written, `none` when no file was opened. -/
def save_to_file (fuel : Nat) (h : Heap) (notes : List Ptr) (opened : Bool) :
    M (Option (List Char)) :=
  if opened then do
    let out ← save_to_file_buckets fuel h notes DAYS_IN_WEEK 0 []
    pure (some out)
  else pure none

/-- The two lines that the file format has for the note at address `a`: its
weekday number in decimal and its text, each followed by a newline. -/
def record_of (h : Heap) (a : Nat) : List Char :=
  (fmt_d (day_at h a) ++ ['\n']) ++ (text_at h a ++ ['\n'])

/-- The file format in the words of the specification: the records of all
notes, bucket after bucket and in list order within a bucket, with nothing
before, between or after them. -/
def file_format (h : Heap) (contents : List (List Nat)) : List Char :=
  (contents.flatten.map (record_of h)).flatten

/-- A store with the Sunday note "Rest" and the Friday note "Gym". -/
def heap_rest_gym : Heap :=
  [some ⟨"Rest".toList, 1, none, none⟩, some ⟨"Gym".toList, 6, none, none⟩]

/-- The buckets of `heap_rest_gym`. -/
def store_rest_gym : List Ptr := [some 0, none, none, none, none, some 1, none]

/-- C library `isspace` in the "C" locale. -/
def isspace (c : Char) : Bool :=
  c = ' ' || c = '\t' || c = '\n' || c = '\x0b' || c = '\x0c' || c = '\r'

/-- An input stream: the characters not read yet and the end-of-file
indicator, which is set as soon as a read runs into the end of the input. -/
structure FILE where
  rest : List Char
  eof : Bool
deriving DecidableEq, Repr

/-- A white-space directive of a `scanf` format: reads up to the first
character that is not white space. -/
def skip_space (f : FILE) : FILE :=
  { rest := f.rest.dropWhile isspace, eof := f.eof || (f.rest.dropWhile isspace).isEmpty }

/-- Value of a string of decimal digits. -/
def digits_value (ds : List Char) : Int :=
  ds.foldl (fun acc c => 10 * acc + ((c.toNat : Int) - 48)) 0

/-- C library `fscanf(file, " %d\n", &day)`: the return value (1, 0 for a
matching failure, -1 for `EOF`), the number assigned (if any) and the stream
afterwards.  The value is the mathematical one. -/
def fscanf_d (f : FILE) : Int × Option Int × FILE :=
  let f1 := skip_space f
  match f1.rest with
  | [] => (-1, none, f1)
  | c :: cs =>
    let body := if c = '-' ∨ c = '+' then cs else c :: cs
    let ds := body.takeWhile Char.isDigit
    let after := body.dropWhile Char.isDigit
    if ds = [] then (0, none, { rest := body, eof := f1.eof || body.isEmpty })
    else
      let v := digits_value ds
      (1, some (if c = '-' then -v else v),
        skip_space { rest := after, eof := f1.eof || after.isEmpty })

/-- C library `fscanf(file, " %100[^\n]s", text)`: the return value, the
characters stored (the terminating zero comes on top of them) and the stream
afterwards. -/
def fscanf_text (f : FILE) : Int × Option (List Char) × FILE :=
  let f1 := skip_space f
  match f1.rest with
  | [] => (-1, none, f1)
  | _ :: _ =>
    let run := (f1.rest.takeWhile (fun c => c != '\n')).take 100
    let after := f1.rest.drop run.length
    if run = [] then (0, none, f1)
    else
      match after with
      | [] => (1, some run, { rest := [], eof := true })
      | c :: cs => (1, some run, { rest := if c = 's' then cs else c :: cs, eof := f1.eof })

/-- Least value of the C type `int`. -/
def INT_MIN : Int := -2147483648

/-- Greatest value of the C type `int`. -/
def INT_MAX : Int := 2147483647

/-- The `while (!feof(file))` loop of `read_from_file`.  `junk a` is the
indeterminate contents of a block that `malloc` returns at address `a`.  A
number that does not fit `int`, and a text that (with its terminating zero)
does not fit the buffer `char text[MAX_NOTE_LENGTH]`, are undefined.  The
characters stored by the scan go to `create_note` as they are: the string that
`strlen` and `strcpy` find in the buffer when the text line holds no NUL byte. -/
def read_from_file_loop (fuel : Nat) (junk : Nat → Ptr × Ptr) :
    Nat → Heap → List Ptr → FILE → Int → M (Heap × List Ptr × Int)
  | 0, _, _, _, _ => .error .fuel
  | k + 1, h, notes, file, total =>
    if file.eof then .ok (h, notes, total)
    else
      match fscanf_d file with
      | (r1, day, file1) =>
        match fscanf_text file1 with
        | (r2, text, file2) =>
          if (day.any fun d => d < INT_MIN || INT_MAX < d)
              || (text.any fun t => MAX_NOTE_LENGTH < t.length + 1) then
            .error .undefined
          else if r1 + r2 ≠ 2 then .ok (h, notes, total)
          else
            match day, text with
            | some day, some text =>
              match create_note h (junk h.length) text (day - 1) with
              | (note, h1) => do
                let first ← bucket notes (day - 1)
                let r ← add_note fuel h1 first (some note)
                read_from_file_loop fuel junk k r.2 (notes.set (day - 1).toNat r.1) file2
                  (total + 1)
            | _, _ => .error .undefined

/-- Source `read_from_file`, from the `fopen` on.  `file` is the contents of
the file that `fopen(filename, "r")` opened, `none` when it failed.  Returns
the heap, the store and the two numbers of the final `printf` (the notes read
and the notes now in the store), `none` when nothing was printed. -/
def read_from_file (fuel : Nat) (junk : Nat → Ptr × Ptr) (h : Heap) (notes : List Ptr)
    (file : Option (List Char)) : M (Heap × List Ptr × Option (Int × Int)) :=
  match file with
  | none => .ok (h, notes, none)
  | some contents => do
    let r ← read_from_file_loop fuel junk fuel h notes { rest := contents, eof := false } 0
    let amount ← get_amount_notes_by_day fuel r.1 r.2.1
    pure (r.1, r.2.1, some (r.2.2, amount))

/-- The store with seven empty buckets. -/
def empty_store : List Ptr := List.replicate DAYS_IN_WEEK none

/-- An allocator whose blocks start with `NULL` in both links. -/
def zeroed : Nat → Ptr × Ptr := fun _ => (none, none)

/-- A text that the reader gives back as it was written: not empty, shorter
than the buffer, without a newline, and not starting with white space. -/
def Storable (t : List Char) : Prop :=
  t ≠ [] ∧ t.length < MAX_NOTE_LENGTH ∧ '\n' ∉ t ∧ ∀ c, t.head? = some c → isspace c = false

/-- The day and the text of the note at address `a`. -/
def entry (h : Heap) (a : Nat) : Int × List Char := (day_at h a, text_at h a)

/-- The file contents for a sequence of (day, text) records. -/
def render (rs : List (Int × List Char)) : List Char :=
  (rs.map (fun r => (fmt_d r.1 ++ ['\n']) ++ (r.2 ++ ['\n']))).flatten

/-- State of a store while a file is loaded into it: seven buckets, bucket `i`
being the doubly-linked list of the notes `cont[i]`, and no note in two
buckets. -/
structure Loaded (h : Heap) (notes : List Ptr) (cont : List (List Nat)) : Prop where
  len : notes.length = DAYS_IN_WEEK
  clen : cont.length = DAYS_IN_WEEK
  lists : ∀ i : Nat, i < DAYS_IN_WEEK → IsDList h none (notes[i]?.getD none) (cont[i]?.getD [])
  disj : ∀ i j : Nat, i ≠ j → ∀ a ∈ cont[i]?.getD [], a ∉ cont[j]?.getD []

/-- A store with one Sunday note whose text starts with a blank. -/
def heap_blank : Heap := [some ⟨" Rest".toList, 1, none, none⟩]

/-- The buckets of `heap_blank`, also those of the store read back from its file. -/
def store_blank : List Ptr := [some 0, none, none, none, none, none, none]

/-! ### Standard input -/

/-- C library `scanf(" %d", &x)` on the stream `f`: the return value (1, 0
for a matching failure, -1 for `EOF`), the number assigned (`none` when `x`
is left as it was) and the stream afterwards. -/
def scanf_d (f : FILE) : Int × Option Int × FILE :=
  let f1 := skip_space f
  match f1.rest with
  | [] => (-1, none, f1)
  | c :: cs =>
    let body := if c = '-' ∨ c = '+' then cs else c :: cs
    let ds := body.takeWhile Char.isDigit
    let after := body.dropWhile Char.isDigit
    if ds = [] then (0, none, { rest := body, eof := f1.eof || body.isEmpty })
    else
      let v := digits_value ds
      (1, some (if c = '-' then -v else v), { rest := after, eof := f1.eof || after.isEmpty })

/-- C library `scanf(" %c", &x)`: the character read (`none` at the end of
the input, where `x` is left as it was) and the stream afterwards. -/
def scanf_c (f : FILE) : Option Char × FILE :=
  let f1 := skip_space f
  match f1.rest with
  | [] => (none, f1)
  | c :: cs => (some c, { rest := cs, eof := f1.eof })

/-- C library `scanf(" %100[^\n]", text)`, the scan of `add_note_user`: the
return value, the characters stored (the terminating zero comes on top of
them) and the stream afterwards. -/
def scanf_line (f : FILE) : Int × Option (List Char) × FILE :=
  let f1 := skip_space f
  match f1.rest with
  | [] => (-1, none, f1)
  | _ :: _ =>
    let run := (f1.rest.takeWhile (fun c => c != '\n')).take 100
    let after := f1.rest.drop run.length
    if run = [] then (0, none, f1)
    else (1, some run, { rest := after, eof := f1.eof || after.isEmpty })

/-- Number of bytes that a scan writes into its buffer for the text `t`: the
characters and the terminating zero. -/
def bytes_written (t : List Char) : Nat := t.length + 1

/-- The C comparison `a <= b`, whose value is the `int` 1 or 0. -/
def c_le (a b : Int) : Int := if a ≤ b then 1 else 0

/-- Source `read_day`.  The test is the C expression
`!(1 <= day <= DAYS_IN_WEEK)`, which compares the value of `1 <= day` (0 or 1)
with `DAYS_IN_WEEK`.  The first argument bounds the depth of the recursive
retry.  When the scan assigns nothing, `day` is read uninitialised. -/
def read_day : Nat → FILE → M (Int × FILE)
  | 0, _ => .error .fuel
  | k + 1, stdin =>
    match scanf_d stdin with
    | (_, none, _) => .error .undefined
    | (_, some day, stdin1) =>
      if day < INT_MIN ∨ INT_MAX < day then .error .undefined
      else if c_le (c_le 1 day) DAYS_IN_WEEK = 0 then read_day k stdin1
      else .ok (day, stdin1)

/-! ### Sequences of list operations -/

/-- One call on a bucket: `add_note` with the note at an address, or
`delete_note` with the note at an address. -/
inductive Op where
  | add (a : Nat)
  | del (a : Nat)
deriving DecidableEq, Repr

/-- Runs the calls `ops` one after another on a bucket, each on the head that
the call before returned. -/
def run_ops (fuel : Nat) : Heap → Ptr → List Op → M (Ptr × Heap)
  | h, first, [] => .ok (first, h)
  | h, first, .add a :: rest =>
    match add_note fuel h first (some a) with
    | .error e => .error e
    | .ok (first1, h1) => run_ops fuel h1 first1 rest
  | h, first, .del a :: rest =>
    match delete_note h first (some a) with
    | .error e => .error e
    | .ok (first1, h1) => run_ops fuel h1 first1 rest

/-- A heap with one note, at address 0, that was linked before. -/
def heap_one : Heap := [some ⟨"Gym".toList, 6, none, none⟩]

/-! ### The interactive program

The functions below read what the user types from `stdin`.  What the program
prints is not part of the model, except for the text that the print functions
build; a print function is modelled by the memory it reads. -/

/-- What the program cannot decide by itself: `junk a` is the indeterminate
contents of a block that `malloc` returns at address `a`, and `writable name`
tells whether `fopen(name, "w")` succeeds. -/
structure Env where
  junk : Nat → Ptr × Ptr
  writable : List Char → Bool

/-- The state of the program: the heap, the array `notes_by_day`, the input not
read yet, and the files by name. -/
structure World where
  heap : Heap
  notes : List Ptr
  stdin : FILE
  files : List (List Char × List Char)
deriving DecidableEq, Repr

/-- Source `add_note_user`.  `create_note` is called before
`notes_by_day[day_of_week]` is read; an index outside the array is undefined.
When the scan of the text assigns nothing, `text` is read uninitialised. -/
def add_note_user (fuel : Nat) (env : Env) (w : World) : M World := do
  let r ← read_day fuel w.stdin
  let day_of_week := r.1 - 1
  if c_le (c_le 1 day_of_week) DAYS_IN_WEEK = 0 then
    pure { w with stdin := r.2 }
  else
    match scanf_line r.2 with
    | (_, none, _) => .error .undefined
    | (_, some text, stdin2) =>
      if MAX_NOTE_LENGTH < bytes_written text then .error .undefined
      else
        match create_note w.heap (env.junk w.heap.length) text day_of_week with
        | (note, h1) => do
          let first_note ← bucket w.notes day_of_week
          let a ← add_note fuel h1 first_note (some note)
          pure { w with heap := a.2, notes := w.notes.set day_of_week.toNat a.1, stdin := stdin2 }

/-- Source `find_by_index_user`; the first `Nat` argument bounds the depth of
the recursive retries.  Returns the note found and the input left. -/
def find_by_index_user (fuel : Nat) (h : Heap) (notes : List Ptr) : Nat → FILE → M (Ptr × FILE)
  | 0, _ => .error .fuel
  | k + 1, stdin => do
    let r ← read_day fuel stdin
    if c_le (c_le 1 r.1) DAYS_IN_WEEK = 0 then find_by_index_user fuel h notes k r.2
    else do
      let first_note ← bucket notes (r.1 - 1)
      let length ← get_amount_notes fuel h first_note
      if length = 0 then pure (none, r.2)
      else
        match scanf_d r.2 with
        | (_, none, _) => .error .undefined
        | (_, some index, stdin2) =>
          if index < INT_MIN ∨ INT_MAX < index then .error .undefined
          else if c_le (c_le 1 index) length = 0 then find_by_index_user fuel h notes k stdin2
          else do
            let found ← find_by_index h notes r.1 index
            pure (found, stdin2)

/-- Source `find_user`; the first `Nat` argument bounds the depth of the
recursive retries.  Returns the note found and the input left. -/
def find_user (fuel : Nat) (h : Heap) (notes : List Ptr) : Nat → FILE → M (Ptr × FILE)
  | 0, _ => .error .fuel
  | k + 1, stdin =>
    match scanf_c stdin with
    | (none, _) => .error .undefined
    | (some command, stdin1) =>
      if command = 'i' then find_by_index_user fuel h notes fuel stdin1
      else if command = 'k' then
        match fscanf_text stdin1 with
        | (_, none, _) => .error .undefined
        | (_, some keyword, stdin2) =>
          if MAX_NOTE_LENGTH < bytes_written keyword then .error .undefined
          else do
            let found ← find_by_keyword fuel h notes keyword
            pure (found, stdin2)
      else if command = 't' then
        match fscanf_text stdin1 with
        | (_, none, _) => .error .undefined
        | (_, some text, stdin2) =>
          if MAX_NOTE_LENGTH < bytes_written text then .error .undefined
          else do
            let found ← find_by_text fuel h notes text
            pure (found, stdin2)
      else if command = 'l' then do
        let r ← read_day fuel stdin1
        let first_note ← bucket notes (r.1 - 1)
        let found ← get_last_note fuel h first_note
        pure (found, r.2)
      else if command = 'c' then pure (none, stdin1)
      else if command = 'h' then pure (none, stdin1)
      else find_user fuel h notes k stdin1

/-- Source `delete_note_user`.  The index `to_delete->day - 1` is taken to be
computed before `delete_note` frees the note. -/
def delete_note_user (fuel : Nat) (w : World) : M World := do
  let r ← find_user fuel w.heap w.notes fuel w.stdin
  match r.1 with
  | none => pure { w with stdin := r.2 }
  | some t => do
    let nt ← deref w.heap (some t)
    let first_note ← bucket w.notes (nt.day - 1)
    let d ← delete_note w.heap first_note (some t)
    pure { w with heap := d.2, notes := w.notes.set (nt.day - 1).toNat d.1, stdin := r.2 }

/-- Source `day_to_string`; for a day outside 1..7 the function returns no
value, and using it is undefined. -/
def day_to_string (day : Int) : M (List Char) :=
  if day = 1 then .ok "Sunday".toList
  else if day = 2 then .ok "Monday".toList
  else if day = 3 then .ok "Tuesday".toList
  else if day = 4 then .ok "Wednesday".toList
  else if day = 5 then .ok "Thursday".toList
  else if day = 6 then .ok "Friday".toList
  else if day = 7 then .ok "Saturday".toList
  else .error .undefined

/-- Source `print_note`: the line printed with the format `"%-10s: %s\n"`. -/
def print_note (h : Heap) (note : Ptr) : M (List Char) :=
  match note with
  | none => .ok []
  | some a => do
    let n ← deref h (some a)
    let name ← day_to_string n.day
    pure (name ++ List.replicate (10 - name.length) ' ' ++ [':', ' '] ++ n.text ++ ['\n'])

/-- The `while (true)` loop of `print_notes`; `out` is what was printed so far. -/
def print_notes_loop (h : Heap) : Nat → Nat → List Char → M (List Char)
  | 0, _, _ => .error .fuel
  | fuel + 1, note, out => do
    let line ← print_note h (some note)
    let n ← deref h (some note)
    match n.next with
    | none => pure (out ++ line)
    | some nx => print_notes_loop h fuel nx (out ++ line)

/-- Source `print_notes`. -/
def print_notes (fuel : Nat) (h : Heap) (first_note : Ptr) : M (List Char) :=
  match first_note with
  | none => .ok []
  | some a => print_notes_loop h fuel a []

/-- The `for` loop of `print_notes_by_day`: buckets left, index `i`, and what
was printed so far. -/
def print_notes_by_day_loop (fuel : Nat) (h : Heap) (notes : List Ptr) :
    Nat → Nat → List Char → M (List Char)
  | 0, _, out => .ok out
  | k + 1, i, out => do
    let first_note ← bucket notes i
    let lines ← print_notes fuel h first_note
    print_notes_by_day_loop fuel h notes k (i + 1) (out ++ lines)

/-- Source `print_notes_by_day`. -/
def print_notes_by_day (fuel : Nat) (h : Heap) (notes : List Ptr) : M (List Char) :=
  print_notes_by_day_loop fuel h notes DAYS_IN_WEEK 0 []

/-- Result of `fopen(name, "r")`: the contents of the file, `none` when there
is no such file. -/
def fopen_read (files : List (List Char × List Char)) (name : List Char) : Option (List Char) :=
  (files.find? (fun e => decide (e.1 = name))).map (fun e => e.2)

/-- Source `save_to_file` as the command `s` runs it: the name of the file is
scanned into `char filename[MAX_NOTE_LENGTH]`, then the file is written. -/
def save_to_file_cmd (fuel : Nat) (env : Env) (w : World) : M World :=
  match fscanf_text w.stdin with
  | (_, none, _) => .error .undefined
  | (_, some filename, stdin1) =>
    if MAX_NOTE_LENGTH < bytes_written filename then .error .undefined
    else do
      let out ← save_to_file fuel w.heap w.notes (env.writable filename)
      match out with
      | none => pure { w with stdin := stdin1 }
      | some contents => pure { w with stdin := stdin1, files := (filename, contents) :: w.files }

/-- Source `read_from_file` as the command `r` runs it: the name of the file
is scanned into `char filename[MAX_NOTE_LENGTH]`, then the file is read. -/
def read_from_file_cmd (fuel : Nat) (env : Env) (w : World) : M World :=
  match fscanf_text w.stdin with
  | (_, none, _) => .error .undefined
  | (_, some filename, stdin1) =>
    if MAX_NOTE_LENGTH < bytes_written filename then .error .undefined
    else do
      let r ← read_from_file fuel env.junk w.heap w.notes (fopen_read w.files filename)
      pure { w with heap := r.1, notes := r.2.1, stdin := stdin1 }

/-- One pass through the body of the `while (true)` loop of `main`.
`command` is the value of the variable `command` before the pass (`none`
while it is uninitialised); it keeps that value when the scan reads nothing.
Returns the state, the value of `command`, and whether the loop was left by
`break`. -/
def main_iteration (fuel : Nat) (env : Env) (w : World) (command : Option Char) :
    M (World × Option Char × Bool) :=
  match scanf_c w.stdin with
  | (read, stdin1) =>
    match (read.orElse fun _ => command) with
    | none => .error .undefined
    | some c =>
      if c = 'a' then do
        let w2 ← add_note_user fuel env { w with stdin := stdin1 }
        pure (w2, some c, false)
      else if c = 'd' then do
        let w2 ← delete_note_user fuel { w with stdin := stdin1 }
        pure (w2, some c, false)
      else if c = 'p' then do
        let _ ← print_notes_by_day fuel w.heap w.notes
        pure ({ w with stdin := stdin1 }, some c, false)
      else if c = 'f' then do
        let r ← find_user fuel w.heap w.notes fuel stdin1
        let _ ← print_note w.heap r.1
        pure ({ w with stdin := r.2 }, some c, false)
      else if c = 's' then do
        let w2 ← save_to_file_cmd fuel env { w with stdin := stdin1 }
        pure (w2, some c, false)
      else if c = 'r' then do
        let w2 ← read_from_file_cmd fuel env { w with stdin := stdin1 }
        pure (w2, some c, false)
      else if c = 'q' then pure ({ w with stdin := stdin1 }, some c, true)
      else if c = 'h' then pure ({ w with stdin := stdin1 }, some c, false)
      else pure ({ w with stdin := stdin1 }, some c, false)

/-- The `while (true)` loop of `main`; the first argument bounds the number of
passes. -/
def main_loop (fuel : Nat) (env : Env) : Nat → World → Option Char → M World
  | 0, _, _ => .error .fuel
  | k + 1, w, command => do
    let r ← main_iteration fuel env w command
    if r.2.2 then pure r.1 else main_loop fuel env k r.1 r.2.1

/-- Source `main`.  `notes0` is the indeterminate contents of the array of
`DAYS_IN_WEEK` pointers that `malloc` returned: `main` does not initialise it. -/
def main (fuel : Nat) (env : Env) (notes0 : List Ptr) (input : List Char)
    (files : List (List Char × List Char)) : M World :=
  main_loop fuel env fuel
    { heap := [], notes := notes0, stdin := { rest := input, eof := false }, files := files } none

/-- An environment whose blocks start with `NULL` links and where every file
can be written. -/
def env_zeroed : Env := { junk := zeroed, writable := fun _ => true }

/-- What the text scan can take without harm: nothing at all, or a line that
starts with a character that is no white space, is shorter than the buffer,
and ends at a newline or at the end of the file. -/
def ShortLine (x : List Char) : Prop :=
  x = [] ∨ ∃ (c : Char) (line after : List Char), x = (c :: line) ++ after ∧
    isspace c = false ∧ '\n' ∉ c :: line ∧ (c :: line).length < MAX_NOTE_LENGTH ∧
    (after = [] ∨ ∃ more, after = '\n' :: more)

/-- What follows the complete records of a file that ends in a record the
reader cannot take (or in no record at all).  After white space `ws` (blanks,
empty lines) and an optional sign `sgn` comes either something that is not a
number (no digit comes next; what is there, after white space `ws2` when a sign
went before, is a `ShortLine`), or a number that fits an `int`, of any value,
after which the file holds white space only (a weekday line with no text
line). -/
def Malformed (tail : List Char) : Prop :=
  ∃ ws sgn : List Char, (∀ x ∈ ws, isspace x = true) ∧ (sgn = [] ∨ sgn = ['-'] ∨ sgn = ['+']) ∧
    ((∃ ws2 x : List Char, tail = ws ++ (sgn ++ (ws2 ++ x)) ∧ (∀ y ∈ ws2, isspace y = true) ∧
        ShortLine x ∧ (sgn = [] → ws2 = [] ∧ ∀ c ∈ x.head?, c ≠ '-' ∧ c ≠ '+') ∧
        (ws2 = [] → ∀ c ∈ x.head?, c.isDigit = false)) ∨
     (∃ ds ws' : List Char, tail = ws ++ (sgn ++ (ds ++ ws')) ∧ ds ≠ [] ∧
        (∀ x ∈ ds, x.isDigit = true) ∧ (∀ x ∈ ws', isspace x = true) ∧
        INT_MIN ≤ (if sgn = ['-'] then -digits_value ds else digits_value ds) ∧
        (if sgn = ['-'] then -digits_value ds else digits_value ds) ≤ INT_MAX))

/-! ## Heap lemmas -/

theorem cell_lt {h : Heap} {a : Nat} {n : Note} (hc : cell h a = some n) : a < h.length := by
  unfold cell at hc
  by_contra hlt
  rw [List.get?_eq_none.mpr (Nat.le_of_not_lt hlt)] at hc
  simp at hc

theorem cell_set_self {h : Heap} {a : Nat} {m : Note} (v : Option Note)
    (hc : cell h a = some m) : cell (h.set a v) a = v := by
  have hlt := cell_lt hc
  simp [cell, List.getElem?_set, hlt]

theorem cell_set_ne {h : Heap} {a b : Nat} (v : Option Note) (hne : a ≠ b) :
    cell (h.set a v) b = cell h b := by
  simp [cell, List.getElem?_set, hne]

theorem cell_store_self {h : Heap} {a : Nat} {m : Note} (n : Note)
    (hc : cell h a = some m) : cell (store h a n) a = some n :=
  cell_set_self (some n) hc

theorem cell_store_ne {h : Heap} {a b : Nat} (n : Note) (hne : a ≠ b) :
    cell (store h a n) b = cell h b :=
  cell_set_ne (some n) hne

/-! ## Lists in the heap -/

theorem IsDList.isList {h : Heap} {l : List Nat} :
    ∀ {pr p : Ptr}, IsDList h pr p l → IsList h p l := by
  induction l with
  | nil => intro pr p hl; exact hl
  | cons a t ih =>
    intro pr p hl
    obtain ⟨hp, n, hc, _, ht⟩ := hl
    exact ⟨hp, n, hc, ih ht⟩

theorem IsList.functional {h : Heap} {l : List Nat} :
    ∀ {p : Ptr} {l' : List Nat}, IsList h p l → IsList h p l' → l = l' := by
  induction l with
  | nil =>
    intro p l' hl hl'
    cases l' with
    | nil => rfl
    | cons b t' =>
      have h1 : p = none := hl
      have h2 : p = some b := hl'.1
      rw [h1] at h2
      cases h2
  | cons a t ih =>
    intro p l' hl hl'
    obtain ⟨hp, n, hc, ht⟩ := hl
    cases l' with
    | nil =>
      have h1 : p = none := hl'
      rw [h1] at hp
      cases hp
    | cons b t' =>
      obtain ⟨hp', n', hc', ht'⟩ := hl'
      rw [hp] at hp'
      cases hp'
      rw [hc] at hc'
      cases hc'
      rw [ih ht ht']

theorem IsList.suffix {h : Heap} {l1 : List Nat} {a : Nat} {l2 : List Nat} :
    ∀ {p : Ptr}, IsList h p (l1 ++ a :: l2) → IsList h (some a) (a :: l2) := by
  induction l1 with
  | nil =>
    intro p hl
    obtain ⟨_, n, hc, ht⟩ := hl
    exact ⟨rfl, n, hc, ht⟩
  | cons b t ih =>
    intro p hl
    obtain ⟨_, n, _, ht⟩ := hl
    exact ih ht

/-- A list that ends in `NULL` never visits a note twice: it is not circular. -/
theorem IsList.nodup {h : Heap} {l : List Nat} : ∀ {p : Ptr}, IsList h p l → l.Nodup := by
  induction l with
  | nil => intro p _; exact List.nodup_nil
  | cons a t ih =>
    intro p hl
    obtain ⟨hp, n, hc, ht⟩ := hl
    refine List.nodup_cons.mpr ⟨?_, ih ht⟩
    intro hmem
    obtain ⟨s1, s2, hs⟩ := List.append_of_mem hmem
    have hsuf : IsList h (some a) (a :: s2) := by
      rw [hs] at ht
      exact IsList.suffix ht
    have hwhole : IsList h (some a) (a :: t) := ⟨rfl, n, hc, ht⟩
    have heq := IsList.functional hwhole hsuf
    have hlen := congrArg List.length heq
    rw [hs] at hlen
    simp at hlen
    omega

theorem IsDList.dframe {h h' : Heap} {l : List Nat} (hsame : ∀ a ∈ l, cell h' a = cell h a) :
    ∀ {pr p : Ptr}, IsDList h pr p l → IsDList h' pr p l := by
  induction l with
  | nil => intro pr p hl; exact hl
  | cons a t ih =>
    intro pr p hl
    obtain ⟨hp, n, hc, hpr, ht⟩ := hl
    refine ⟨hp, n, ?_, hpr, ih (fun b hb => hsame b (List.mem_cons_of_mem a hb)) ht⟩
    rw [hsame a (List.mem_cons_self a t)]
    exact hc

theorem IsList.frame {h h' : Heap} {l : List Nat} (hsame : ∀ a ∈ l, cell h' a = cell h a) :
    ∀ {p : Ptr}, IsList h p l → IsList h' p l := by
  induction l with
  | nil => intro p hl; exact hl
  | cons a t ih =>
    intro p hl
    obtain ⟨hp, n, hc, ht⟩ := hl
    refine ⟨hp, n, ?_, ih (fun b hb => hsame b (List.mem_cons_of_mem a hb)) ht⟩
    rw [hsame a (List.mem_cons_self a t)]
    exact hc

/-- With fuel for every note, the loop of `get_last_note` returns the last
note of the list. -/
theorem get_last_note_loop_eq {h : Heap} {t : List Nat} :
    ∀ {a : Nat} {fuel : Nat}, IsList h (some a) (a :: t) → (a :: t).length ≤ fuel →
      get_last_note_loop h fuel a = .ok ((a :: t).getLast (List.cons_ne_nil a t)) := by
  induction t with
  | nil =>
    intro a fuel hl hf
    obtain ⟨_, n, hc, ht⟩ := hl
    have hn : n.next = none := ht
    cases fuel with
    | zero => simp at hf
    | succ k => simp [get_last_note_loop, hc, hn]
  | cons b t ih =>
    intro a fuel hl hf
    obtain ⟨_, n, hc, ht⟩ := hl
    have hn : n.next = some b := ht.1
    cases fuel with
    | zero => simp at hf
    | succ k =>
      have hb : IsList h (some b) (b :: t) := by
        rw [hn] at ht
        exact ht
      have hk : (b :: t).length ≤ k := by
        simp only [List.length_cons] at hf ⊢
        omega
      simp [get_last_note_loop, hc, hn, ih hb hk]

/-- Linking an unlinked note `b` behind the last note of a list extends the
list by `b`. -/
theorem IsDList.snoc {h : Heap} {b : Nat} {nb : Note} (hb : cell h b = some nb)
    (hbn : nb.next = none) :
    ∀ {t : List Nat} {a : Nat} {pr : Ptr}, IsDList h pr (some a) (a :: t) → b ∉ a :: t →
      ∃ nl, cell h ((a :: t).getLast (List.cons_ne_nil a t)) = some nl ∧
        IsDList
          (store (store h ((a :: t).getLast (List.cons_ne_nil a t)) { nl with next := some b })
            b { nb with prev := some ((a :: t).getLast (List.cons_ne_nil a t)) })
          pr (some a) (a :: t ++ [b]) := by
  intro t
  induction t with
  | nil =>
    intro a pr hl hnot
    obtain ⟨_, n, hc, hpr, ht⟩ := hl
    have hn : n.next = none := ht
    have hab : a ≠ b := by
      intro e
      apply hnot
      simp [e]
    refine ⟨n, by simpa using hc, ?_⟩
    simp only [List.getLast_singleton, List.singleton_append]
    have hb1 : cell (store h a { n with next := some b }) b = some nb := by
      rw [cell_store_ne _ hab]; exact hb
    refine ⟨rfl, { n with next := some b }, ?_, hpr, rfl, _, cell_store_self _ hb1, rfl, ?_⟩
    · rw [cell_store_ne _ (Ne.symm hab)]
      exact cell_store_self _ hc
    · exact hbn
  | cons c t ih =>
    intro a pr hl hnot
    have hnd : (a :: c :: t).Nodup := IsList.nodup hl.isList
    obtain ⟨_, n, hc, hpr, ht⟩ := hl
    have hn : n.next = some c := ht.1
    rw [hn] at ht
    have hnot' : b ∉ c :: t := fun hm => hnot (List.mem_cons_of_mem a hm)
    obtain ⟨nl, hcl, hd⟩ := ih ht hnot'
    have hlast : (a :: c :: t).getLast (List.cons_ne_nil a (c :: t))
        = (c :: t).getLast (List.cons_ne_nil c t) := by simp
    have hmem : (c :: t).getLast (List.cons_ne_nil c t) ∈ c :: t := List.getLast_mem _
    have hal : (c :: t).getLast (List.cons_ne_nil c t) ≠ a := by
      intro e
      rw [e] at hmem
      exact (List.nodup_cons.mp hnd).1 hmem
    have hab : b ≠ a := by
      intro e
      apply hnot
      simp [e]
    refine ⟨nl, by rw [hlast]; exact hcl, ?_⟩
    rw [hlast]
    refine ⟨rfl, n, ?_, hpr, ?_⟩
    · rw [cell_store_ne _ hab, cell_store_ne _ hal]
      exact hc
    · rw [hn]
      exact hd

/-- Effect of `add_note` on a well-formed list and a fresh unlinked note: the
note is appended, the head is the first note of the extended list, only the
old last note and the new note are written, and no payload changes. -/
theorem add_note_append {h : Heap} {first : Ptr} {l : List Nat} {b : Nat} {fuel : Nat}
    (hl : IsDList h none first l) (hb : Unlinked h b) (hnot : b ∉ l) (hf : l.length ≤ fuel) :
    ∃ h', add_note fuel h first (some b) = .ok ((l ++ [b]).head?, h') ∧
      IsDList h' none (l ++ [b]).head? (l ++ [b]) ∧
      (∀ c, c ∉ l → c ≠ b → cell h' c = cell h c) ∧
      (∀ c, (cell h' c).map payload = (cell h c).map payload) := by
  obtain ⟨nb, hcb, hbn, hbp⟩ := hb
  cases l with
  | nil =>
    have hfirst : first = none := hl
    subst hfirst
    refine ⟨h, rfl, ?_, fun _ _ _ => rfl, fun _ => rfl⟩
    exact ⟨rfl, nb, hcb, hbp, hbn⟩
  | cons a t =>
    have hfirst : first = some a := hl.1
    subst hfirst
    obtain ⟨nl, hcl, hd⟩ := IsDList.snoc hcb hbn hl hnot
    have hlast := get_last_note_loop_eq hl.isList hf
    have hlb : (a :: t).getLast (List.cons_ne_nil a t) ≠ b := by
      intro e
      apply hnot
      rw [← e]
      exact List.getLast_mem _
    have hb1 : cell (store h ((a :: t).getLast (List.cons_ne_nil a t)) { nl with next := some b }) b
        = some nb := by
      rw [cell_store_ne _ hlb]; exact hcb
    refine ⟨_, ?_, hd, ?_, ?_⟩
    · simp only [add_note, hlast, set_next, hcl, set_prev, hb1]
      rfl
    · intro c hc hcb'
      have hcl' : (a :: t).getLast (List.cons_ne_nil a t) ≠ c := by
        intro e
        apply hc
        rw [← e]
        exact List.getLast_mem _
      rw [cell_store_ne _ (Ne.symm hcb'), cell_store_ne _ hcl']
    · intro c
      by_cases hcb' : c = b
      · subst hcb'
        rw [cell_store_self _ hb1, hcb]
        rfl
      · rw [cell_store_ne _ (Ne.symm hcb')]
        by_cases hcl' : c = (a :: t).getLast (List.cons_ne_nil a t)
        · rw [hcl', cell_store_self _ hcl, hcl]
          rfl
        · rw [cell_store_ne _ (Ne.symm hcl')]

theorem IsDList.head_eq {h : Heap} {pr p : Ptr} {l : List Nat} (hl : IsDList h pr p l) :
    p = l.head? := by
  cases l with
  | nil => exact hl
  | cons a t => exact hl.1

/-- A non-empty bucket keeps its head under `add_note`. -/
theorem add_note_head {fuel : Nat} {h : Heap} {a : Nat} {b : Ptr} {r : Ptr × Heap}
    (hr : add_note fuel h (some a) b = .ok r) : r.1 = some a := by
  unfold add_note at hr
  cases b with
  | none =>
    simp only [Except.ok.injEq] at hr
    rw [← hr]
  | some b =>
    simp only at hr
    split at hr
    · cases hr
    · split at hr
      · cases hr
      · split at hr
        · cases hr
        · simp only [Except.ok.injEq] at hr
          rw [← hr]

/-- Effect of a run of `add_note` calls on a well-formed list `l0` and fresh,
pairwise different, unlinked notes. -/
theorem add_notes_append {fuel : Nat} :
    ∀ (notes : List Nat) {h : Heap} {first : Ptr} {l0 : List Nat},
      IsDList h none first l0 → (∀ b ∈ notes, Unlinked h b) → (l0 ++ notes).Nodup →
      (l0 ++ notes).length ≤ fuel →
      ∃ h', add_notes fuel h first notes = .ok ((l0 ++ notes).head?, h') ∧
        IsDList h' none (l0 ++ notes).head? (l0 ++ notes) ∧
        (∀ c, c ∉ l0 ++ notes → cell h' c = cell h c) ∧
        (∀ c, (cell h' c).map payload = (cell h c).map payload) := by
  intro notes
  induction notes with
  | nil =>
    intro h first l0 hl _ _ _
    have hfirst := hl.head_eq
    subst hfirst
    refine ⟨h, ?_, ?_, fun _ _ => rfl, fun _ => rfl⟩
    · simp [add_notes]
    · simpa using hl
  | cons b rest ih =>
    intro h first l0 hl hfresh hnd hf
    have hnd' : ((l0 ++ [b]) ++ rest).Nodup := by simpa using hnd
    have hbl : b ∉ l0 := by
      intro hm
      have := List.nodup_append.mp hnd
      exact this.2.2 hm (List.mem_cons_self b rest)
    have hf0 : l0.length ≤ fuel := by
      simp only [List.length_append, List.length_cons] at hf
      omega
    obtain ⟨h1, hrun, hd1, hframe1, hpay1⟩ :=
      add_note_append hl (hfresh b (List.mem_cons_self b rest)) hbl hf0
    have hfresh1 : ∀ c ∈ rest, Unlinked h1 c := by
      intro c hc
      have hcl : c ∉ l0 := by
        intro hm
        have := List.nodup_append.mp hnd
        exact this.2.2 hm (List.mem_cons_of_mem b hc)
      have hcb : c ≠ b := by
        intro e
        subst e
        have := List.nodup_append.mp hnd
        exact (List.nodup_cons.mp this.2.1).1 hc
      obtain ⟨n, hn⟩ := hfresh c (List.mem_cons_of_mem b hc)
      exact ⟨n, by rw [hframe1 c hcl hcb]; exact hn.1, hn.2⟩
    have hf1 : ((l0 ++ [b]) ++ rest).length ≤ fuel := by simpa using hf
    obtain ⟨h2, hrun2, hd2, hframe2, hpay2⟩ := ih hd1 hfresh1 hnd' hf1
    refine ⟨h2, ?_, ?_, ?_, ?_⟩
    · simp only [add_notes, hrun]
      simpa using hrun2
    · simpa using hd2
    · intro c hc
      have hc2 : c ∉ (l0 ++ [b]) ++ rest := by simpa using hc
      rw [hframe2 c hc2]
      apply hframe1 c
      · intro hm
        exact hc (List.mem_append_left _ hm)
      · intro e
        apply hc
        simp [e]
    · intro c
      rw [hpay2 c, hpay1 c]

/-- C1: adding N fresh, unlinked, pairwise different notes one after another
with `add_note` to an empty bucket succeeds (given fuel for N notes); following
`next` from the returned head visits exactly these notes in insertion order;
the head is the first note added; no text or day is changed; and `add_note`
on a non-empty bucket returns the head it was given. -/
theorem add_note_insertion_order (h : Heap) (notes : List Nat) (fuel : Nat)
    (hfresh : ∀ b ∈ notes, Unlinked h b) (hnd : notes.Nodup) (hf : notes.length ≤ fuel) :
    (∃ h', add_notes fuel h none notes = .ok (notes.head?, h') ∧
      IsList h' notes.head? notes ∧
      (∀ c, (cell h' c).map payload = (cell h c).map payload)) ∧
    (∀ (f : Nat) (g : Heap) (a : Nat) (b : Ptr) (r : Ptr × Heap),
      add_note f g (some a) b = .ok r → r.1 = some a) := by
  refine ⟨?_, fun f g a b r hr => add_note_head hr⟩
  have hl : IsDList h none none [] := rfl
  obtain ⟨h', hrun, hd, _, hpay⟩ :=
    add_notes_append notes hl hfresh (by simpa using hnd) (by simpa using hf)
  refine ⟨h', by simpa using hrun, ?_, hpay⟩
  have := hd.isList
  simpa using this

theorem heap3_unlinked : ∀ b ∈ [0, 1, 2], Unlinked heap3 b := by
  intro b hb
  simp only [List.mem_cons, List.mem_singleton, List.not_mem_nil, or_false] at hb
  rcases hb with rfl | rfl | rfl
  · exact ⟨_, rfl, rfl, rfl⟩
  · exact ⟨_, rfl, rfl, rfl⟩
  · exact ⟨_, rfl, rfl, rfl⟩

theorem add_note_insertion_order_witness :
    (∃ h', add_notes 3 heap3 none [0, 1, 2] = .ok ([0, 1, 2].head?, h') ∧
      IsList h' [0, 1, 2].head? [0, 1, 2] ∧
      (∀ c, (cell h' c).map payload = (cell heap3 c).map payload)) ∧
    (∀ (f : Nat) (g : Heap) (a : Nat) (b : Ptr) (r : Ptr × Heap),
      add_note f g (some a) b = .ok r → r.1 = some a) :=
  add_note_insertion_order heap3 [0, 1, 2] 3 heap3_unlinked (by decide) (by decide)

theorem heap3_built : add_notes 3 heap3 none [0, 1, 2] = .ok (some 0, heap3_linked) := by decide

/-! ## Deleting notes -/

/-- Two neighbours of a doubly-linked list point at each other. -/
theorem IsDList.adjacent {h : Heap} {x y : Nat} {rest : List Nat} :
    ∀ {pre : List Nat} {pr p : Ptr}, IsDList h pr p (pre ++ x :: y :: rest) →
      ∃ nx ny, cell h x = some nx ∧ nx.next = some y ∧ cell h y = some ny ∧
        ny.prev = some x := by
  intro pre
  induction pre with
  | nil =>
    intro pr p hl
    obtain ⟨_, nx, hcx, _, ht⟩ := hl
    obtain ⟨hny, ny, hcy, hpy, _⟩ := ht
    exact ⟨nx, ny, hcx, hny, hcy, hpy⟩
  | cons c pre ih =>
    intro pr p hl
    obtain ⟨_, n, _, _, ht⟩ := hl
    exact ih ht

/-- What `delete_note` does to an interior note `t` of a well-formed list, with
predecessor `p` and successor `s`: `p.next` becomes `s` and `t` is freed, but
no other cell is written, so `s.prev` still holds the address of `t`. -/
theorem delete_note_interior_eval {h : Heap} {hd : Ptr} {pre post : List Nat} {p t s : Nat}
    (hl : IsDList h none hd (pre ++ p :: t :: s :: post)) :
    ∃ h' np ns, delete_note h hd (some t) = .ok (hd, h') ∧
      cell h p = some np ∧ cell h' p = some { np with next := some s } ∧
      cell h s = some ns ∧ ns.prev = some t ∧ cell h' s = some ns ∧ cell h' t = none := by
  have hnd : (pre ++ p :: t :: s :: post).Nodup := IsList.nodup hl.isList
  obtain ⟨np, nt, hcp, _, hct, htp⟩ := IsDList.adjacent hl
  have hl2 : IsDList h none hd ((pre ++ [p]) ++ t :: s :: post) := by simpa using hl
  obtain ⟨nt', ns, hct', hts, hcs, hsp⟩ := IsDList.adjacent hl2
  rw [hct] at hct'
  cases hct'
  have hnd2 : (p :: t :: s :: post).Nodup := (List.nodup_append.mp hnd).2.1
  have hpt : p ≠ t := by
    intro e
    subst e
    simp at hnd2
  have hps : p ≠ s := by
    intro e
    subst e
    simp at hnd2
  have hts' : t ≠ s := by
    intro e
    subst e
    simp at hnd2
  have hct1 : cell (store h p { np with next := some s }) t = some nt := by
    rw [cell_store_ne _ hpt]; exact hct
  refine ⟨(store h p { np with next := some s }).set t none, np, ns, ?_, hcp, ?_, hcs, hsp, ?_, ?_⟩
  · simp only [delete_note, deref, hct, htp, hts, set_next, hcp, free_note, hct1, bind,
      Except.bind, pure, Except.pure]
  · rw [cell_set_ne _ (Ne.symm hpt)]
    exact cell_store_self _ hcp
  · rw [cell_set_ne _ hts', cell_store_ne _ hps]
    exact hcs
  · exact cell_set_self none hct1

/-- C2: in a list of at least three notes built by `add_note`, deleting an
interior note `t` (predecessor `p`, successor `s`) with `delete_note` returns
the old head, sets `p.next` to `s` and frees `t`, but leaves `s.prev` equal to
the address of the freed note `t`; it is not set to `p`. -/
theorem delete_note_interior_stale_prev (h0 : Heap) (pre post : List Nat) (p t s : Nat)
    (fuel : Nat) (hfresh : ∀ b ∈ pre ++ p :: t :: s :: post, Unlinked h0 b)
    (hnd : (pre ++ p :: t :: s :: post).Nodup)
    (hf : (pre ++ p :: t :: s :: post).length ≤ fuel) :
    ∃ head h h', add_notes fuel h0 none (pre ++ p :: t :: s :: post) = .ok (head, h) ∧
      delete_note h head (some t) = .ok (head, h') ∧
      (cell h' p).map (fun n => n.next) = some (some s) ∧
      (cell h' s).map (fun n => n.prev) = some (some t) ∧
      some t ≠ some p ∧ cell h' t = none := by
  have hl0 : IsDList h0 none none [] := rfl
  obtain ⟨h, hrun, hd, _, _⟩ :=
    add_notes_append (pre ++ p :: t :: s :: post) hl0 hfresh (by simpa using hnd)
      (by simpa using hf)
  simp only [List.nil_append] at hrun hd
  obtain ⟨h', np, ns, hdel, _, hp', _, hsp, hs', ht'⟩ := delete_note_interior_eval hd
  refine ⟨_, h, h', hrun, hdel, ?_, ?_, ?_, ht'⟩
  · rw [hp']; rfl
  · rw [hs']; simp [hsp]
  · have hnd2 : (p :: t :: s :: post).Nodup := (List.nodup_append.mp hnd).2.1
    intro e
    cases e
    simp at hnd2

theorem delete_note_interior_stale_prev_witness :
    ∃ head h h', add_notes 3 heap3 none ([] ++ 0 :: 1 :: 2 :: []) = .ok (head, h) ∧
      delete_note h head (some 1) = .ok (head, h') ∧
      (cell h' 0).map (fun n => n.next) = some (some 2) ∧
      (cell h' 2).map (fun n => n.prev) = some (some 1) ∧
      some 1 ≠ some 0 ∧ cell h' 1 = none :=
  delete_note_interior_stale_prev heap3 [] [] 0 1 2 3 heap3_unlinked (by decide) (by decide)

/-- Deleting the interior note of the three-note list `heap3_linked`: the
successor (address 2) keeps `prev = some 1`, the address of the freed note. -/
theorem delete_note_interior_example :
    delete_note heap3_linked (some 0) (some 1) = .ok (some 0,
      [some ⟨"Buy milk".toList, 2, some 2, none⟩, none,
       some ⟨"Rest".toList, 2, none, some 1⟩]) := by decide

/-- Effect of `delete_note` on the head of a well-formed list. -/
theorem delete_note_head_eval {h : Heap} {a : Nat} {rest : List Nat}
    (hl : IsDList h none (some a) (a :: rest)) :
    ∃ h', delete_note h (some a) (some a) = .ok (rest.head?, h') ∧
      IsDList h' none rest.head? rest ∧ cell h' a = none ∧
      (∀ c, c ≠ a → (cell h' c).map payload = (cell h c).map payload) ∧
      (∀ c, c ≠ a → some c ≠ rest.head? → cell h' c = cell h c) := by
  have hnd : (a :: rest).Nodup := IsList.nodup hl.isList
  obtain ⟨_, na, hca, hpa, ht⟩ := hl
  cases rest with
  | nil =>
    have hna : na.next = none := ht
    refine ⟨h.set a none, ?_, rfl, cell_set_self none hca, ?_, ?_⟩
    · simp only [delete_note, deref, hca, hpa, hna, free_note, bind, Except.bind, pure,
        Except.pure, List.head?_nil]
    · intro c hc
      rw [cell_set_ne _ (Ne.symm hc)]
    · intro c hc _
      rw [cell_set_ne _ (Ne.symm hc)]
  | cons b r =>
    obtain ⟨hna, nb, hcb, _, hr⟩ := ht
    have hab : a ≠ b := by
      intro e
      subst e
      simp at hnd
    have hca1 : cell (store h b { nb with prev := none }) a = some na := by
      rw [cell_store_ne _ (Ne.symm hab)]; exact hca
    refine ⟨(store h b { nb with prev := none }).set a none, ?_, ?_, cell_set_self none hca1,
      ?_, ?_⟩
    · simp only [delete_note, deref, hca, hpa, hna, set_prev, hcb, hca1, free_note, bind,
        Except.bind, pure, Except.pure, List.head?_cons]
    · refine ⟨rfl, { nb with prev := none }, ?_, rfl, ?_⟩
      · rw [cell_set_ne _ hab]
        exact cell_store_self _ hcb
      · refine IsDList.dframe ?_ hr
        intro c hc
        have hca' : a ≠ c := by
          intro e
          subst e
          exact (List.nodup_cons.mp hnd).1 (List.mem_cons_of_mem b hc)
        have hcb' : b ≠ c := by
          intro e
          subst e
          exact (List.nodup_cons.mp (List.nodup_cons.mp hnd).2).1 hc
        rw [cell_set_ne _ hca', cell_store_ne _ hcb']
    · intro c hc
      rw [cell_set_ne _ (Ne.symm hc)]
      by_cases hcb' : c = b
      · subst hcb'
        rw [cell_store_self _ hcb, hcb]
        rfl
      · rw [cell_store_ne _ (Ne.symm hcb')]
    · intro c hc hcb'
      have hbc : b ≠ c := by
        intro e
        subst e
        exact hcb' rfl
      rw [cell_set_ne _ (Ne.symm hc), cell_store_ne _ hbc]

/-- C9: for a non-empty list built by `add_note`, `delete_note(head, head)`
returns the successor of the old head as new head: `none` when the head was the
only note, otherwise the second note; the remaining notes form a well-formed
list whose first note has `prev = none`, the old head is freed, no remaining
note changes its text or day, and the notes after the second are not written. -/
theorem delete_note_head (h0 : Heap) (a : Nat) (rest : List Nat) (fuel : Nat)
    (hfresh : ∀ b ∈ a :: rest, Unlinked h0 b) (hnd : (a :: rest).Nodup)
    (hf : (a :: rest).length ≤ fuel) :
    ∃ h h', add_notes fuel h0 none (a :: rest) = .ok (some a, h) ∧
      delete_note h (some a) (some a) = .ok (rest.head?, h') ∧
      IsDList h' none rest.head? rest ∧ cell h' a = none ∧
      (∀ c, c ≠ a → (cell h' c).map payload = (cell h c).map payload) ∧
      (∀ c, c ≠ a → some c ≠ rest.head? → cell h' c = cell h c) := by
  have hl0 : IsDList h0 none none [] := rfl
  obtain ⟨h, hrun, hd, _, _⟩ :=
    add_notes_append (a :: rest) hl0 hfresh (by simpa using hnd) (by simpa using hf)
  simp only [List.nil_append, List.head?_cons] at hrun hd
  obtain ⟨h', hdel, hd', hfree, hpay, hframe⟩ := delete_note_head_eval hd
  exact ⟨h, h', hrun, hdel, hd', hfree, hpay, hframe⟩

theorem delete_note_head_witness :
    ∃ h h', add_notes 3 heap3 none (0 :: [1, 2]) = .ok (some 0, h) ∧
      delete_note h (some 0) (some 0) = .ok ([1, 2].head?, h') ∧
      IsDList h' none [1, 2].head? [1, 2] ∧ cell h' 0 = none ∧
      (∀ c, c ≠ 0 → (cell h' c).map payload = (cell h c).map payload) ∧
      (∀ c, c ≠ 0 → some c ≠ [1, 2].head? → cell h' c = cell h c) :=
  delete_note_head heap3 0 [1, 2] 3 heap3_unlinked (by decide) (by decide)

/-- C10, as stated, fails: Monday's head (address 2) is not in Sunday's list
0 → 1, yet `delete_note` on Sunday's bucket with that target frees Sunday's
head and returns Sunday's second note as the new head. -/
theorem delete_note_foreign_head_counterexample :
    IsList heap_two_days (some 0) [0, 1] ∧ 2 ∉ [0, 1] ∧
    delete_note heap_two_days (some 0) (some 2) = .ok (some 1,
      [none, some ⟨"Read".toList, 1, none, none⟩,
       some ⟨"Buy milk".toList, 2, some 3, none⟩, some ⟨"Call mom".toList, 2, none, some 2⟩]) ∧
    ¬ ∃ h', delete_note heap_two_days (some 0) (some 2) = .ok (some 0, h') :=
  ⟨⟨rfl, _, rfl, rfl, _, rfl, rfl⟩, by decide, by decide, by
    intro hex
    obtain ⟨h', hh⟩ := hex
    have hev : delete_note heap_two_days (some 0) (some 2) = .ok (some 1,
      [none, some ⟨"Read".toList, 1, none, none⟩,
       some ⟨"Buy milk".toList, 2, some 3, none⟩, some ⟨"Call mom".toList, 2, none, some 2⟩]) := by
      decide
    rw [hev] at hh
    simp at hh⟩

/-- C10 (amended): `delete_note` with the target `none` returns the same head
and leaves the heap as it is; and with a target outside the bucket's list whose
`prev` is a note that is outside the list as well (a note of another list that
is not its head), it returns the same head and writes no note of the bucket,
so the bucket's list holds the same notes in the same order. -/
theorem delete_note_absent (h : Heap) (first : Ptr) (l : List Nat) (target : Ptr)
    (hl : IsList h first l)
    (habs : target = none ∨ ∃ t nt p np, target = some t ∧ cell h t = some nt ∧
      nt.prev = some p ∧ cell h p = some np ∧ t ∉ l ∧ p ∉ l) :
    ∃ h', delete_note h first target = .ok (first, h') ∧ (target = none → h' = h) ∧
      IsList h' first l ∧ (∀ a ∈ l, cell h' a = cell h a) := by
  rcases habs with hnone | ⟨t, nt, p, np, htar, hct, htp, hcp, htl, hpl⟩
  · subst hnone
    exact ⟨h, rfl, fun _ => rfl, hl, fun _ _ => rfl⟩
  · subst htar
    have key : ∀ q : Ptr, ∃ h1 h', set_next h p q = .ok h1 ∧ free_note h1 t = .ok h' ∧
        (∀ a ∈ l, cell h' a = cell h a) := by
      intro q
      have hlive : ∃ m, cell (store h p { np with next := q }) t = some m := by
        by_cases hpt : p = t
        · subst hpt
          exact ⟨_, cell_store_self _ hcp⟩
        · exact ⟨nt, by rw [cell_store_ne _ hpt]; exact hct⟩
      obtain ⟨m, hm⟩ := hlive
      refine ⟨store h p { np with next := q }, (store h p { np with next := q }).set t none,
        ?_, ?_, ?_⟩
      · simp only [set_next, hcp]
      · simp only [free_note, hm]
      · intro a ha
        have hta : t ≠ a := fun e => htl (e ▸ ha)
        have hpa : p ≠ a := fun e => hpl (e ▸ ha)
        rw [cell_set_ne _ hta, cell_store_ne _ hpa]
    cases hnx : nt.next with
    | none =>
      obtain ⟨h1, h', hset, hfree, hframe⟩ := key none
      refine ⟨h', ?_, (fun e => by cases e), IsList.frame hframe hl, hframe⟩
      simp only [delete_note, deref, hct, htp, hnx, hset, hfree, bind, Except.bind, pure,
        Except.pure]
    | some s =>
      obtain ⟨h1, h', hset, hfree, hframe⟩ := key (some s)
      refine ⟨h', ?_, (fun e => by cases e), IsList.frame hframe hl, hframe⟩
      simp only [delete_note, deref, hct, htp, hnx, hset, hfree, bind, Except.bind, pure,
        Except.pure]

theorem delete_note_absent_witness :
    ∃ h', delete_note heap_two_days (some 0) (some 3) = .ok (some 0, h') ∧
      (some 3 = none → h' = heap_two_days) ∧
      IsList h' (some 0) [0, 1] ∧ (∀ a ∈ [0, 1], cell h' a = cell heap_two_days a) :=
  delete_note_absent heap_two_days (some 0) [0, 1] (some 3) ⟨rfl, _, rfl, rfl, _, rfl, rfl⟩
    (Or.inr ⟨3, _, 2, _, rfl, rfl, rfl, rfl, by decide, by decide⟩)

/-! ## Finding notes -/

theorem find_by_index_loop_eq {h : Heap} :
    ∀ (k : Nat) {a : Nat} {t : List Nat}, IsList h (some a) (a :: t) →
      ∃ r, find_by_index_loop h k a = .ok r ∧ (a :: t)[min k t.length]? = some r := by
  intro k
  induction k with
  | zero =>
    intro a t _
    exact ⟨a, rfl, by simp⟩
  | succ k ih =>
    intro a t hl
    obtain ⟨_, n, hc, ht⟩ := hl
    cases t with
    | nil =>
      have hn : n.next = none := ht
      exact ⟨a, by simp [find_by_index_loop, hc, hn], by simp⟩
    | cons b t =>
      have hn : n.next = some b := ht.1
      rw [hn] at ht
      obtain ⟨r, hr, hget⟩ := ih ht
      refine ⟨r, by simp [find_by_index_loop, hc, hn, hr], ?_⟩
      have hmin : min (k + 1) (b :: t).length = min k t.length + 1 := by
        simp only [List.length_cons]
        omega
      rw [hmin, List.getElem?_cons_succ]
      exact hget

/-- In a well-formed store every day in 1..7 has a bucket, and it is the list
of that day's notes. -/
theorem WfStore.bucket_eq {h : Heap} {notes_by_day : List Ptr} {contents : List (List Nat)}
    (hw : WfStore h notes_by_day contents) {day : Int} (h1 : 1 ≤ day) (h7 : day ≤ 7) :
    ∃ first l, bucket notes_by_day (day - 1) = .ok first ∧
      contents[(day - 1).toNat]? = some l ∧ IsList h first l := by
  obtain ⟨hlen, hall⟩ := hw
  have hlen2 := hall.length_eq
  have hi : (day - 1).toNat < notes_by_day.length := by
    rw [hlen]
    simp only [DAYS_IN_WEEK]
    omega
  have hi2 : (day - 1).toNat < contents.length := by
    rw [← hlen2]
    exact hi
  refine ⟨notes_by_day[(day - 1).toNat], contents[(day - 1).toNat], ?_, ?_, ?_⟩
  · have h0 : (0 : Int) ≤ day - 1 := by omega
    unfold bucket
    rw [if_pos h0]
    simp only [List.get?_eq_getElem?, List.getElem?_eq_getElem hi]
  · exact List.getElem?_eq_getElem hi2
  · have := hall.get hi hi2
    simpa using this

/-- On a well-formed bucket `find_by_index` returns the note at position
`index` counted from 0, and the last note when `index` is beyond it. -/
theorem find_by_index_eval {h : Heap} {notes_by_day : List Ptr} {day : Int} {first : Ptr}
    {l : List Nat} (hb : bucket notes_by_day (day - 1) = .ok first) (hl : IsList h first l)
    (index : Int) :
    find_by_index h notes_by_day day index = .ok l[min index.toNat (l.length - 1)]? := by
  cases l with
  | nil =>
    have hfirst : first = none := hl
    subst hfirst
    simp [find_by_index, hb, bind, Except.bind, pure, Except.pure]
  | cons a t =>
    have hfirst : first = some a := hl.1
    subst hfirst
    obtain ⟨r, hr, hget⟩ := find_by_index_loop_eq index.toNat hl
    simp only [find_by_index, hb, hr, bind, Except.bind, pure, Except.pure, List.length_cons,
      Nat.add_sub_cancel]
    rw [hget]

theorem get_last_note_eq {h : Heap} {first : Ptr} {l : List Nat} {fuel : Nat}
    (hl : IsList h first l) (hf : l.length ≤ fuel) :
    get_last_note fuel h first = .ok l.getLast? := by
  cases l with
  | nil =>
    have hfirst : first = none := hl
    subst hfirst
    rfl
  | cons a t =>
    have hfirst : first = some a := hl.1
    subst hfirst
    simp only [get_last_note, get_last_note_loop_eq hl hf]
    rw [List.getLast?_eq_getLast]

theorem wf_two_days :
    WfStore heap_two_days store_two_days [[0, 1], [2, 3], [], [], [], [], []] := by
  refine ⟨rfl, ?_⟩
  refine .cons ⟨rfl, _, rfl, rfl, _, rfl, rfl⟩ (.cons ⟨rfl, _, rfl, rfl, _, rfl, rfl⟩ ?_)
  exact .cons rfl (.cons rfl (.cons rfl (.cons rfl (.cons rfl .nil))))

/-- C3: `find_by_index` counts from 0, not from 1.  In a well-formed store, for
a day in 1..7 whose list is `l` and an index `k` with `1 ≤ k < length l`, the
call `find_by_index(store, day, k)` returns the note at position `k` counted
from 0, which is the `(k+1)`-th note of the list, and that is a different note
from the `k`-th one; index 1 returns the second note. -/
theorem find_by_index_zero_based (h : Heap) (notes_by_day : List Ptr)
    (contents : List (List Nat)) (hw : WfStore h notes_by_day contents) (day : Int)
    (h1 : 1 ≤ day) (h7 : day ≤ 7) (l : List Nat) (hl : contents[(day - 1).toNat]? = some l)
    (k : Nat) (hk1 : 1 ≤ k) (hk : k < l.length) :
    find_by_index h notes_by_day day k = .ok l[k]? ∧ l[k]? ≠ l[k - 1]? := by
  obtain ⟨first, l', hb, hl', hlist⟩ := hw.bucket_eq h1 h7
  rw [hl] at hl'
  cases hl'
  constructor
  · rw [find_by_index_eval hb hlist]
    have : min (k : Int).toNat (l.length - 1) = k := by
      simp only [Int.toNat_ofNat]
      omega
    rw [this]
  · have hnd : l.Nodup := IsList.nodup hlist
    have hk' : k - 1 < l.length := by omega
    rw [List.getElem?_eq_getElem hk, List.getElem?_eq_getElem hk']
    intro e
    simp only [Option.some.injEq] at e
    have := (List.Nodup.getElem_inj_iff hnd).mp e
    omega

theorem find_by_index_zero_based_witness :
    (find_by_index heap_two_days store_two_days 2 (1 : Nat) = .ok [2, 3][1]? ∧
      [2, 3][1]? ≠ [2, 3][1 - 1]?) ∧
    text_at heap_two_days 2 = "Buy milk".toList ∧ text_at heap_two_days 3 = "Call mom".toList :=
  ⟨find_by_index_zero_based heap_two_days store_two_days _ wf_two_days 2 (by decide) (by decide)
    [2, 3] rfl 1 (by decide) (by decide), by decide, by decide⟩

/-- C4: in a well-formed store, for every day in 1..7 and every index that is
at least the length of that day's list, `find_by_index` returns what
`get_last_note` returns on that day's bucket (given fuel for the list): the
last note of the list, and `none` when the bucket is empty. -/
theorem find_by_index_clamps_to_last (h : Heap) (notes_by_day : List Ptr)
    (contents : List (List Nat)) (hw : WfStore h notes_by_day contents) (day : Int)
    (h1 : 1 ≤ day) (h7 : day ≤ 7) (l : List Nat) (hl : contents[(day - 1).toNat]? = some l)
    (index : Int) (hidx : (l.length : Int) ≤ index) (fuel : Nat) (hf : l.length ≤ fuel) :
    ∃ first, bucket notes_by_day (day - 1) = .ok first ∧
      find_by_index h notes_by_day day index = get_last_note fuel h first ∧
      get_last_note fuel h first = .ok l.getLast? := by
  obtain ⟨first, l', hb, hl', hlist⟩ := hw.bucket_eq h1 h7
  rw [hl] at hl'
  cases hl'
  refine ⟨first, hb, ?_, get_last_note_eq hlist hf⟩
  rw [find_by_index_eval hb hlist, get_last_note_eq hlist hf, List.getLast?_eq_getElem?]
  have : min index.toNat (l.length - 1) = l.length - 1 := by omega
  rw [this]

theorem find_by_index_clamps_to_last_witness :
    (∃ first, bucket store_two_days ((2 : Int) - 1) = .ok first ∧
      find_by_index heap_two_days store_two_days 2 5 = get_last_note 2 heap_two_days first ∧
      get_last_note 2 heap_two_days first = .ok [2, 3].getLast?) ∧
    text_at heap_two_days 3 = "Call mom".toList :=
  ⟨find_by_index_clamps_to_last heap_two_days store_two_days _ wf_two_days 2 (by decide)
    (by decide) [2, 3] rfl 5 (by decide) 2 (by decide), by decide⟩

/-- The model of `strstr` finds an occurrence exactly when there is one. -/
theorem strstr_isSome (needle : List Char) :
    ∀ hay : List Char, (strstr hay needle).isSome = true ↔ needle <:+: hay := by
  intro hay
  induction hay with
  | nil =>
    by_cases hn : needle = []
    · simp [strstr, hn]
    · simp [strstr, hn]
  | cons c hay ih =>
    by_cases hp : needle <+: c :: hay
    · simp only [strstr, hp, if_true, Option.isSome_some, true_iff]
      exact hp.isInfix
    · simp only [strstr, hp, if_false, Option.isSome_map', ih]
      rw [List.infix_cons_iff]
      simp [hp]

/-- The model of `strcmp` returns zero exactly on equal strings. -/
theorem strcmp_eq_zero : ∀ s t : List Char, strcmp s t = 0 ↔ s = t := by
  intro s
  induction s with
  | nil =>
    intro t
    cases t with
    | nil => simp [strcmp]
    | cons d t => simp [strcmp]
  | cons c s ih =>
    intro t
    cases t with
    | nil => simp [strcmp]
    | cons d t =>
      by_cases hcd : c = d
      · simp [strcmp, hcd, ih]
      · by_cases hlt : c < d
        · simp [strcmp, hcd, hlt]
        · simp [strcmp, hcd, hlt]

theorem text_at_eq {h : Heap} {a : Nat} {n : Note} (hc : cell h a = some n) :
    text_at h a = n.text := by
  simp [text_at, hc]

/-- With fuel for every note of the bucket, the inner loop returns the first
note of the bucket whose text passes the test. -/
theorem find_loop_eq (test : List Char → Bool) {h : Heap} {t : List Nat} :
    ∀ {a : Nat} {fuel : Nat}, IsList h (some a) (a :: t) → (a :: t).length ≤ fuel →
      find_loop test h fuel a = .ok ((a :: t).find? (fun x => test (text_at h x))) := by
  induction t with
  | nil =>
    intro a fuel hl hf
    obtain ⟨_, n, hc, ht⟩ := hl
    have hn : n.next = none := ht
    cases fuel with
    | zero => simp at hf
    | succ k =>
      by_cases htest : test n.text = true
      · simp [find_loop, hc, htest, text_at_eq hc]
      · simp [find_loop, hc, htest, hn, text_at_eq hc]
  | cons b t ih =>
    intro a fuel hl hf
    obtain ⟨_, n, hc, ht⟩ := hl
    have hn : n.next = some b := ht.1
    rw [hn] at ht
    cases fuel with
    | zero => simp at hf
    | succ k =>
      have hk : (b :: t).length ≤ k := by
        simp only [List.length_cons] at hf ⊢
        omega
      by_cases htest : test n.text = true
      · simp [find_loop, hc, htest, text_at_eq hc]
      · have hneg : ¬ test (text_at h a) = true := by
          rw [text_at_eq hc]
          exact htest
        have hfind : (a :: b :: t).find? (fun x => test (text_at h x))
            = (b :: t).find? (fun x => test (text_at h x)) :=
          List.find?_cons_of_neg (p := fun x => test (text_at h x)) _ hneg
        rw [hfind]
        simp [find_loop, hc, htest, hn, ih ht hk]

theorem bucket_nat {notes_by_day : List Ptr} {i : Nat} (hi : i < notes_by_day.length) :
    bucket notes_by_day (i : Int) = .ok notes_by_day[i] := by
  unfold bucket
  rw [if_pos (Int.ofNat_nonneg i)]
  simp only [Int.toNat_ofNat, List.get?_eq_getElem?, List.getElem?_eq_getElem hi]

/-- The loop over the buckets returns the first note, from bucket `i` on,
whose text passes the test. -/
theorem find_buckets_eq (test : List Char → Bool) {fuel : Nat} {h : Heap}
    {notes_by_day : List Ptr} {contents : List (List Nat)}
    (hall : List.Forall₂ (IsList h) notes_by_day contents)
    (hf : ∀ l ∈ contents, l.length ≤ fuel) :
    ∀ (k i : Nat), i + k = notes_by_day.length →
      find_buckets test fuel h notes_by_day k i
        = .ok ((contents.drop i).flatten.find? (fun x => test (text_at h x))) := by
  have hlen := hall.length_eq
  intro k
  induction k with
  | zero =>
    intro i hi
    have : contents.length ≤ i := by omega
    simp [find_buckets, List.drop_eq_nil_of_le this]
  | succ k ih =>
    intro i hi
    have hi1 : i < notes_by_day.length := by omega
    have hi2 : i < contents.length := by omega
    have hlist : IsList h notes_by_day[i] contents[i] := by
      have := hall.get hi1 hi2
      simpa using this
    have hrest := ih (i + 1) (by omega)
    rw [List.drop_eq_getElem_cons hi2, List.flatten_cons, List.find?_append]
    simp only [find_buckets, bucket_nat hi1, bind, Except.bind]
    cases hc : contents[i] with
    | nil =>
      rw [hc] at hlist
      have hnone : notes_by_day[i] = none := hlist
      rw [hnone]
      simp only [hrest, List.find?_nil, Option.none_or]
    | cons a t =>
      rw [hc] at hlist
      have hsome : notes_by_day[i] = some a := hlist.1
      rw [hsome] at hlist ⊢
      have hfa : (a :: t).length ≤ fuel := by
        rw [← hc]
        exact hf _ (List.getElem_mem hi2)
      simp only [find_loop_eq test hlist hfa]
      cases hfound : (a :: t).find? (fun x => test (text_at h x)) with
      | none => simp only [hrest, Option.none_or]
      | some r => simp [pure, Except.pure]

/-- C5: in a well-formed store, `find_by_keyword` (given fuel for the longest
bucket) returns the first note, going through bucket 0 (Sunday) to bucket 6
(Saturday) and through each bucket in list order, whose text contains the
keyword as a substring, and it returns `none` exactly when no note of the
store contains the keyword. -/
theorem find_by_keyword_first (h : Heap) (notes_by_day : List Ptr)
    (contents : List (List Nat)) (hw : WfStore h notes_by_day contents)
    (keyword : List Char) (fuel : Nat) (hf : ∀ l ∈ contents, l.length ≤ fuel) :
    find_by_keyword fuel h notes_by_day keyword
      = .ok (contents.flatten.find? (fun a => decide (keyword <:+: text_at h a))) ∧
    (find_by_keyword fuel h notes_by_day keyword = .ok none ↔
      ∀ a ∈ contents.flatten, ¬ keyword <:+: text_at h a) := by
  have hrun : find_by_keyword fuel h notes_by_day keyword
      = .ok (contents.flatten.find? (fun a => decide (keyword <:+: text_at h a))) := by
    unfold find_by_keyword
    rw [find_buckets_eq _ hw.2 hf DAYS_IN_WEEK 0 (by rw [hw.1]; simp), List.drop_zero]
    congr 2
    funext a
    rw [Bool.eq_iff_iff, strstr_isSome]
    simp
  refine ⟨hrun, ?_⟩
  rw [hrun]
  simp only [Except.ok.injEq, List.find?_eq_none, decide_eq_true_eq]

/-- C6: in a well-formed store, `find_by_text` (given fuel for the longest
bucket) returns the first note, going through bucket 0 (Sunday) to bucket 6
(Saturday) and through each bucket in list order, whose text is equal to `t`,
and it returns `none` exactly when no note of the store has the text `t`. -/
theorem find_by_text_first (h : Heap) (notes_by_day : List Ptr)
    (contents : List (List Nat)) (hw : WfStore h notes_by_day contents)
    (t : List Char) (fuel : Nat) (hf : ∀ l ∈ contents, l.length ≤ fuel) :
    find_by_text fuel h notes_by_day t
      = .ok (contents.flatten.find? (fun a => decide (text_at h a = t))) ∧
    (find_by_text fuel h notes_by_day t = .ok none ↔
      ∀ a ∈ contents.flatten, text_at h a ≠ t) := by
  have hrun : find_by_text fuel h notes_by_day t
      = .ok (contents.flatten.find? (fun a => decide (text_at h a = t))) := by
    unfold find_by_text
    rw [find_buckets_eq _ hw.2 hf DAYS_IN_WEEK 0 (by rw [hw.1]; simp), List.drop_zero]
    congr 2
    funext a
    rw [Bool.eq_iff_iff]
    simp [strcmp_eq_zero]
  refine ⟨hrun, ?_⟩
  rw [hrun]
  simp only [Except.ok.injEq, List.find?_eq_none, decide_eq_true_eq]

theorem fuel_two_days : ∀ l ∈ [[0, 1], [2, 3], [], [], [], [], ([] : List Nat)], l.length ≤ 2 := by
  decide

theorem find_by_keyword_first_witness :
    (find_by_keyword 2 heap_two_days store_two_days "milk".toList
      = .ok ([[0, 1], [2, 3], [], [], [], [], []].flatten.find?
          (fun a => decide ("milk".toList <:+: text_at heap_two_days a))) ∧
     (find_by_keyword 2 heap_two_days store_two_days "milk".toList = .ok none ↔
      ∀ a ∈ [[0, 1], [2, 3], [], [], [], [], []].flatten,
        ¬ "milk".toList <:+: text_at heap_two_days a)) ∧
    find_by_keyword 2 heap_two_days store_two_days "milk".toList = .ok (some 2) :=
  ⟨find_by_keyword_first heap_two_days store_two_days _ wf_two_days "milk".toList 2
    fuel_two_days, by decide⟩

theorem find_by_text_first_witness :
    (find_by_text 2 heap_two_days store_two_days "Read".toList
      = .ok ([[0, 1], [2, 3], [], [], [], [], []].flatten.find?
          (fun a => decide (text_at heap_two_days a = "Read".toList))) ∧
     (find_by_text 2 heap_two_days store_two_days "Read".toList = .ok none ↔
      ∀ a ∈ [[0, 1], [2, 3], [], [], [], [], []].flatten,
        text_at heap_two_days a ≠ "Read".toList)) ∧
    find_by_text 2 heap_two_days store_two_days "Read".toList = .ok (some 1) ∧
    find_by_text 2 heap_two_days store_two_days "Rea".toList = .ok none :=
  ⟨find_by_text_first heap_two_days store_two_days _ wf_two_days "Read".toList 2
    fuel_two_days, by decide, by decide⟩

/-! ## Saving -/

theorem record_of_eq {h : Heap} {a : Nat} {n : Note} (hc : cell h a = some n) :
    record_of h a = (fmt_d n.day ++ ['\n']) ++ (n.text ++ ['\n']) := by
  simp [record_of, day_at, text_at, hc]

/-- With fuel for every note of the bucket, the inner loop of `save_to_file`
appends the records of the bucket's notes, in list order. -/
theorem save_to_file_loop_eq {h : Heap} {t : List Nat} :
    ∀ {a : Nat} {fuel : Nat} (out : List Char), IsList h (some a) (a :: t) →
      (a :: t).length ≤ fuel →
      save_to_file_loop h fuel a out = .ok (out ++ ((a :: t).map (record_of h)).flatten) := by
  induction t with
  | nil =>
    intro a fuel out hl hf
    obtain ⟨_, n, hc, ht⟩ := hl
    have hn : n.next = none := ht
    cases fuel with
    | zero => simp at hf
    | succ k => simp [save_to_file_loop, hc, hn, record_of_eq hc]
  | cons b t ih =>
    intro a fuel out hl hf
    obtain ⟨_, n, hc, ht⟩ := hl
    have hn : n.next = some b := ht.1
    rw [hn] at ht
    cases fuel with
    | zero => simp at hf
    | succ k =>
      have hk : (b :: t).length ≤ k := by
        simp only [List.length_cons] at hf ⊢
        omega
      simp only [save_to_file_loop, hc, hn, ih _ ht hk]
      simp [record_of_eq hc]

theorem save_to_file_buckets_eq {fuel : Nat} {h : Heap} {notes : List Ptr}
    {contents : List (List Nat)} (hall : List.Forall₂ (IsList h) notes contents)
    (hf : ∀ l ∈ contents, l.length ≤ fuel) :
    ∀ (k i : Nat) (out : List Char), i + k = notes.length →
      save_to_file_buckets fuel h notes k i out
        = .ok (out ++ ((contents.drop i).flatten.map (record_of h)).flatten) := by
  have hlen := hall.length_eq
  intro k
  induction k with
  | zero =>
    intro i out hi
    have : contents.length ≤ i := by omega
    simp [save_to_file_buckets, List.drop_eq_nil_of_le this]
  | succ k ih =>
    intro i out hi
    have hi1 : i < notes.length := by omega
    have hi2 : i < contents.length := by omega
    have hlist : IsList h notes[i] contents[i] := by
      have := hall.get hi1 hi2
      simpa using this
    rw [List.drop_eq_getElem_cons hi2, List.flatten_cons, List.map_append, List.flatten_append]
    simp only [save_to_file_buckets, bucket_nat hi1, bind, Except.bind]
    cases hc : contents[i] with
    | nil =>
      rw [hc] at hlist
      have hnone : notes[i] = none := hlist
      rw [hnone]
      simp only [ih (i + 1) out (by omega), List.map_nil, List.flatten_nil, List.nil_append]
    | cons a t =>
      rw [hc] at hlist
      have hsome : notes[i] = some a := hlist.1
      rw [hsome] at hlist ⊢
      have hfa : (a :: t).length ≤ fuel := by
        rw [← hc]
        exact hf _ (List.getElem_mem hi2)
      simp only [save_to_file_loop_eq out hlist hfa, ih (i + 1) _ (by omega),
        List.append_assoc]

theorem wf_rest_gym :
    WfStore heap_rest_gym store_rest_gym [[0], [], [], [], [], [1], []] := by
  refine ⟨rfl, ?_⟩
  refine .cons ⟨rfl, _, rfl, rfl⟩ (.cons rfl (.cons rfl (.cons rfl (.cons rfl ?_))))
  exact .cons ⟨rfl, _, rfl, rfl⟩ (.cons rfl .nil)

theorem fuel_rest_gym : ∀ l ∈ [[0], [], [], [], [], [1], ([] : List Nat)], l.length ≤ 1 := by
  decide

/-- The file that `save_to_file` writes for a well-formed store. -/
theorem save_to_file_eq {h : Heap} {notes : List Ptr} {contents : List (List Nat)}
    (hw : WfStore h notes contents) {fuel : Nat} (hf : ∀ l ∈ contents, l.length ≤ fuel) :
    save_to_file fuel h notes true
      = .ok (some ((contents.flatten.map (record_of h)).flatten)) := by
  unfold save_to_file
  rw [if_pos rfl]
  simp only [bind, Except.bind,
    save_to_file_buckets_eq hw.2 hf DAYS_IN_WEEK 0 [] (by rw [hw.1]; simp), pure, Except.pure,
    List.drop_zero, List.nil_append]

/-- C8: for a well-formed store, once the file is open, `save_to_file` (given
fuel for the longest bucket) writes exactly the concatenation, over the
buckets 0..6 in order and over each bucket's notes in list order, of the
note's weekday number in decimal, a newline, the note's text and a newline,
with nothing before or after. -/
theorem save_to_file_format (h : Heap) (notes : List Ptr) (contents : List (List Nat))
    (hw : WfStore h notes contents) (fuel : Nat) (hf : ∀ l ∈ contents, l.length ≤ fuel) :
    save_to_file fuel h notes true = .ok (some (file_format h contents)) := by
  simp only [save_to_file, if_true, bind, Except.bind,
    save_to_file_buckets_eq hw.2 hf DAYS_IN_WEEK 0 [] (by rw [hw.1]; simp), pure, Except.pure,
    List.drop_zero, List.nil_append, file_format]

theorem save_to_file_format_witness :
    save_to_file 1 heap_rest_gym store_rest_gym true
      = .ok (some (file_format heap_rest_gym [[0], [], [], [], [], [1], []])) ∧
    file_format heap_rest_gym [[0], [], [], [], [], [1], []] = "1\nRest\n6\nGym\n".toList :=
  ⟨save_to_file_format heap_rest_gym store_rest_gym _ wf_rest_gym 1 fuel_rest_gym, by decide⟩

/-! ## Reading a saved file back -/

theorem fmt_d_digit (d : Int) (h1 : 1 ≤ d) (h7 : d ≤ 7) :
    ∃ c, fmt_d d = [c] ∧ c.isDigit = true ∧ isspace c = false ∧ c ≠ '-' ∧ c ≠ '+' ∧
      digits_value [c] = d := by
  have hcases : d = 1 ∨ d = 2 ∨ d = 3 ∨ d = 4 ∨ d = 5 ∨ d = 6 ∨ d = 7 := by omega
  rcases hcases with rfl | rfl | rfl | rfl | rfl | rfl | rfl
  · exact ⟨'1', by decide, by decide, by decide, by decide, by decide, by decide⟩
  · exact ⟨'2', by decide, by decide, by decide, by decide, by decide, by decide⟩
  · exact ⟨'3', by decide, by decide, by decide, by decide, by decide, by decide⟩
  · exact ⟨'4', by decide, by decide, by decide, by decide, by decide, by decide⟩
  · exact ⟨'5', by decide, by decide, by decide, by decide, by decide, by decide⟩
  · exact ⟨'6', by decide, by decide, by decide, by decide, by decide, by decide⟩
  · exact ⟨'7', by decide, by decide, by decide, by decide, by decide, by decide⟩

theorem takeWhile_append_stop {p : Char → Bool} {x : Char} (hx : p x = false) :
    ∀ (t r : List Char), (∀ c ∈ t, p c = true) → (t ++ x :: r).takeWhile p = t := by
  intro t
  induction t with
  | nil => intro r _; simp [List.takeWhile_cons, hx]
  | cons c t ih =>
    intro r hall
    have hc : p c = true := hall c (List.mem_cons_self c t)
    simp only [List.cons_append, List.takeWhile_cons, hc, if_true]
    rw [ih r (fun y hy => hall y (List.mem_cons_of_mem c hy))]

/-- Reading the weekday line of a record: the number is read and the stream
is left at the first character of the text. -/
theorem fscanf_d_record (ws : List Char) (hws : ws = [] ∨ ws = ['\n']) (d : Int) (h1 : 1 ≤ d)
    (h7 : d ≤ 7) (t : List Char) (ht : Storable t) (r : List Char) :
    fscanf_d { rest := ws ++ ((fmt_d d ++ ['\n']) ++ ((t ++ ['\n']) ++ r)), eof := false }
      = (1, some d, { rest := (t ++ ['\n']) ++ r, eof := false }) := by
  obtain ⟨c, hfmt, hdig, hsp, hm, hp, hval⟩ := fmt_d_digit d h1 h7
  obtain ⟨hne, _, _, hhead⟩ := ht
  cases t with
  | nil => exact absurd rfl hne
  | cons x t =>
    have hx : isspace x = false := hhead x rfl
    have hnl : isspace '\n' = true := by decide
    have hnd : Char.isDigit '\n' = false := by decide
    rw [hfmt]
    rcases hws with rfl | rfl
    · simp [fscanf_d, skip_space, List.dropWhile_cons, List.takeWhile_cons, hsp, hx, hm, hp, hdig,
        hnl, hnd, hval]
    · simp [fscanf_d, skip_space, List.dropWhile_cons, List.takeWhile_cons, hsp, hx, hm, hp, hdig,
        hnl, hnd, hval]

/-- Reading the text line of a record: the whole text is read and the stream
is left at the newline that ends it. -/
theorem fscanf_text_record (t : List Char) (ht : Storable t) (r : List Char) :
    fscanf_text { rest := (t ++ ['\n']) ++ r, eof := false }
      = (1, some t, { rest := '\n' :: r, eof := false }) := by
  obtain ⟨hne, hlen, hnl, hhead⟩ := ht
  have htake : ((t ++ ['\n']) ++ r).takeWhile (fun c => c != '\n') = t := by
    have := takeWhile_append_stop (p := fun c => c != '\n') (x := '\n') (by simp) t r
      (by
        intro c hc
        have : c ≠ '\n' := fun e => hnl (e ▸ hc)
        simpa using this)
    simpa using this
  have htk : t.take 100 = t := List.take_of_length_le (by
    simp only [MAX_NOTE_LENGTH] at hlen
    omega)
  cases t with
  | nil => exact absurd rfl hne
  | cons x t =>
    have hx : isspace x = false := hhead x rfl
    have hskip : skip_space { rest := ((x :: t) ++ ['\n']) ++ r, eof := false }
        = { rest := ((x :: t) ++ ['\n']) ++ r, eof := false } := by
      simp [skip_space, List.dropWhile_cons, hx]
    unfold fscanf_text
    rw [hskip]
    simp only [htake, htk]
    simp

/-- Reading at the end of the records: both scans report `EOF`. -/
theorem fscanf_at_end (ws : List Char) (hws : ws = [] ∨ ws = ['\n']) :
    fscanf_d { rest := ws, eof := false } = (-1, none, { rest := [], eof := true }) ∧
    fscanf_text { rest := [], eof := true } = (-1, none, { rest := [], eof := true }) := by
  rcases hws with rfl | rfl
  · exact ⟨by decide, by decide⟩
  · exact ⟨by decide, by decide⟩

theorem cell_length_none (h : Heap) : cell h h.length = none := by
  cases hc : cell h h.length with
  | none => rfl
  | some n => exact absurd (cell_lt hc) (Nat.lt_irrefl _)

theorem cell_append_ne (h : Heap) (x : Option Note) {a : Nat} (ha : a ≠ h.length) :
    cell (h ++ [x]) a = cell h a := by
  unfold cell
  simp only [List.get?_eq_getElem?]
  rcases Nat.lt_or_gt_of_ne ha with hlt | hgt
  · rw [List.getElem?_append_left hlt]
  · rw [List.getElem?_eq_none (by simp; omega), List.getElem?_eq_none (by omega)]

theorem cell_append_self (h : Heap) (x : Option Note) : cell (h ++ [x]) h.length = x := by
  unfold cell
  simp only [List.get?_eq_getElem?, List.getElem?_concat_length, Option.join]
  rfl

theorem IsList.live {h : Heap} {l : List Nat} :
    ∀ {p : Ptr}, IsList h p l → ∀ a ∈ l, ∃ n, cell h a = some n := by
  induction l with
  | nil => intro p _ a ha; cases ha
  | cons b t ih =>
    intro p hl a ha
    obtain ⟨_, n, hc, ht⟩ := hl
    rcases List.mem_cons.mp ha with rfl | hmem
    · exact ⟨n, hc⟩
    · exact ih ht a hmem

theorem entry_congr {h h' : Heap} {a : Nat}
    (hp : (cell h' a).map payload = (cell h a).map payload) : entry h' a = entry h a := by
  unfold entry day_at text_at
  cases hc : cell h a with
  | none =>
    rw [hc] at hp
    cases hc' : cell h' a with
    | none => rfl
    | some n' => rw [hc'] at hp; cases hp
  | some n =>
    rw [hc] at hp
    cases hc' : cell h' a with
    | none => rw [hc'] at hp; cases hp
    | some n' =>
      rw [hc'] at hp
      simp only [Option.map_some', Option.some.injEq, payload, Prod.mk.injEq] at hp
      simp only [hp.1, hp.2]

/-- One round of the reading loop on a record `(d, t)` with `d` in 1..7: the
new note is appended to bucket `d - 1`, every other bucket keeps its notes. -/
theorem load_step {fuel : Nat} {h : Heap} {notes : List Ptr} {cont : List (List Nat)}
    (hL : Loaded h notes cont) (d : Int) (h1 : 1 ≤ d) (h7 : d ≤ 7) (t : List Char)
    (hf : (cont[(d - 1).toNat]?.getD []).length ≤ fuel) :
    ∃ first p h2, bucket notes (d - 1) = .ok first ∧
      add_note fuel (h ++ [some ⟨t, d - 1 + 1, none, none⟩]) first (some h.length)
        = .ok (p, h2) ∧
      Loaded h2 (notes.set (d - 1).toNat p)
        (cont.set (d - 1).toNat (cont[(d - 1).toNat]?.getD [] ++ [h.length])) ∧
      (∀ j : Nat,
        ((cont.set (d - 1).toNat (cont[(d - 1).toNat]?.getD [] ++ [h.length]))[j]?.getD []).map
            (entry h2)
          = (cont[j]?.getD []).map (entry h) ++ (if (d - 1).toNat = j then [(d, t)] else [])) := by
  have hi : (d - 1).toNat < DAYS_IN_WEEK := by
    simp only [DAYS_IN_WEEK]
    omega
  generalize hidef : (d - 1).toNat = i at hi hf ⊢
  have hin : i < notes.length := by rw [hL.len]; exact hi
  have hic : i < cont.length := by rw [hL.clen]; exact hi
  have hbucket : bucket notes (d - 1) = .ok (notes[i]?.getD none) := by
    unfold bucket
    rw [if_pos (by omega), hidef]
    simp only [List.get?_eq_getElem?, List.getElem?_eq_getElem hin, Option.getD_some]
  have hli := hL.lists i hi
  have hbnot : ∀ j : Nat, h.length ∉ cont[j]?.getD [] := by
    intro j hmem
    by_cases hj : j < DAYS_IN_WEEK
    · obtain ⟨n, hn⟩ := (hL.lists j hj).isList.live _ hmem
      rw [cell_length_none] at hn
      cases hn
    · have : cont[j]? = none := List.getElem?_eq_none (by rw [hL.clen]; omega)
      rw [this] at hmem
      cases hmem
  have hli1 : IsDList (h ++ [some ⟨t, d - 1 + 1, none, none⟩]) none (notes[i]?.getD none)
      (cont[i]?.getD []) := by
    refine IsDList.dframe ?_ hli
    intro a ha
    exact cell_append_ne h _ (fun e => hbnot i (e ▸ ha))
  have hunl : Unlinked (h ++ [some ⟨t, d - 1 + 1, none, none⟩]) h.length :=
    ⟨_, cell_append_self h _, rfl, rfl⟩
  obtain ⟨h2, hrun, hd2, hframe2, hpay2⟩ := add_note_append hli1 hunl (hbnot i) hf
  have hentry : ∀ a, a ≠ h.length → entry h2 a = entry h a := by
    intro a ha
    apply entry_congr
    rw [hpay2 a, cell_append_ne h _ ha]
  have hentryb : entry h2 h.length = (d, t) := by
    have : entry h2 h.length = entry (h ++ [some ⟨t, d - 1 + 1, none, none⟩]) h.length :=
      entry_congr (hpay2 _)
    rw [this]
    simp [entry, day_at, text_at, cell_append_self]
  have hview : ∀ j : Nat, (cont[j]?.getD []).map (entry h2) = (cont[j]?.getD []).map (entry h) := by
    intro j
    apply List.map_congr_left
    intro a ha
    exact hentry a (fun e => hbnot j (e ▸ ha))
  refine ⟨_, _, h2, hbucket, hrun, ?_, ?_⟩
  swap
  · intro j
    by_cases hji : i = j
    · subst hji
      rw [List.getElem?_set_self hic]
      simp only [Option.getD_some, List.map_append, List.map_cons, List.map_nil, hentryb,
        if_true, hview]
    · rw [List.getElem?_set_ne hji, if_neg hji, List.append_nil]
      exact hview j
  refine ⟨by rw [List.length_set]; exact hL.len, by rw [List.length_set]; exact hL.clen, ?_, ?_⟩
  · intro j hj
    by_cases hji : i = j
    · subst hji
      rw [List.getElem?_set_self hin, List.getElem?_set_self hic]
      exact hd2
    · rw [List.getElem?_set_ne hji, List.getElem?_set_ne hji]
      refine IsDList.dframe ?_ (hL.lists j hj)
      intro a ha
      have hai : a ∉ cont[i]?.getD [] := hL.disj j i (Ne.symm hji) a ha
      have hab : a ≠ h.length := fun e => hbnot j (e ▸ ha)
      rw [hframe2 a hai hab, cell_append_ne h _ hab]
  · intro j k hjk a ha
    by_cases hji : i = j
    · subst hji
      rw [List.getElem?_set_self hic] at ha
      rw [List.getElem?_set_ne hjk]
      simp only [Option.getD_some, List.mem_append, List.mem_singleton] at ha
      rcases ha with ha | rfl
      · exact hL.disj i k hjk a ha
      · exact hbnot k
    · rw [List.getElem?_set_ne hji] at ha
      by_cases hki : i = k
      · subst hki
        rw [List.getElem?_set_self hic]
        simp only [Option.getD_some, List.mem_append, List.mem_singleton, not_or]
        exact ⟨hL.disj j i hjk a ha, fun e => hbnot j (e ▸ ha)⟩
      · rw [List.getElem?_set_ne hki]
        exact hL.disj j k hjk a ha

theorem render_cons (d : Int) (t : List Char) (rs : List (Int × List Char)) :
    render ((d, t) :: rs) = (fmt_d d ++ ['\n']) ++ ((t ++ ['\n']) ++ render rs) := by
  simp [render]

/-- The reading loop on the file contents of the records `rs` (after the white
space `ws` left over from the record before): with enough fuel it ends, has
read `rs.length` notes, and has appended every record to the bucket of its
day, in file order. -/
theorem read_from_file_loop_render (fuel : Nat) :
    ∀ (rs : List (Int × List Char)), (∀ r ∈ rs, 1 ≤ r.1 ∧ r.1 ≤ 7 ∧ Storable r.2) →
      ∀ (k : Nat) (h : Heap) (notes : List Ptr) (cont : List (List Nat)) (ws : List Char)
        (total : Int), Loaded h notes cont → (ws = [] ∨ ws = ['\n']) → rs.length < k →
        (∀ j : Nat, (cont[j]?.getD []).length + rs.length ≤ fuel) →
        ∃ h' notes' cont',
          read_from_file_loop fuel zeroed k h notes { rest := ws ++ render rs, eof := false } total
            = .ok (h', notes', total + rs.length) ∧
          Loaded h' notes' cont' ∧
          ∀ j : Nat, (cont'[j]?.getD []).map (entry h')
            = (cont[j]?.getD []).map (entry h) ++ rs.filter (fun r => r.1 = (j : Int) + 1) := by
  intro rs
  induction rs with
  | nil =>
    intro _ k h notes cont ws total hL hws hk _
    cases k with
    | zero => simp at hk
    | succ k =>
      refine ⟨h, notes, cont, ?_, hL, by simp⟩
      obtain ⟨hd, ht⟩ := fscanf_at_end ws hws
      simp only [render, List.map_nil, List.flatten_nil, List.append_nil, read_from_file_loop, hd,
        ht]
      simp
  | cons r rs ih =>
    intro hvalid k h notes cont ws total hL hws hk hfuel
    obtain ⟨d, t⟩ := r
    obtain ⟨h1, h7, hst⟩ := hvalid (d, t) (List.mem_cons_self _ _)
    have h1' : 1 ≤ d := h1
    have h7' : d ≤ 7 := h7
    have hst' : Storable t := hst
    cases k with
    | zero => simp at hk
    | succ k =>
      have hfi : (cont[(d - 1).toNat]?.getD []).length ≤ fuel := by
        have := hfuel (d - 1).toNat
        omega
      obtain ⟨first, p, h2, hbucket, hadd, hL2, hview2⟩ := load_step hL d h1' h7' t hfi
      have hfuel2 : ∀ j : Nat,
          ((cont.set (d - 1).toNat (cont[(d - 1).toNat]?.getD [] ++ [h.length]))[j]?.getD []).length
            + rs.length ≤ fuel := by
        intro j
        have hj := congrArg List.length (hview2 j)
        simp only [List.length_map, List.length_append] at hj
        rw [hj]
        have := hfuel j
        simp only [List.length_cons] at this
        split
        · simp only [List.length_singleton]; omega
        · simp only [List.length_nil]; omega
      have hk2 : rs.length < k := by
        simp only [List.length_cons] at hk
        omega
      obtain ⟨h', notes', cont', hrun, hL', hview'⟩ :=
        ih (fun r hr => hvalid r (List.mem_cons_of_mem _ hr)) k h2 _ _ ['\n'] (total + 1) hL2
          (Or.inr rfl) hk2 hfuel2
      refine ⟨h', notes', cont', ?_, hL', ?_⟩
      · have hlen : ¬ MAX_NOTE_LENGTH < t.length + 1 := by
          have := hst'.2.1
          omega
        have hrange : ¬ (d < INT_MIN ∨ INT_MAX < d) := by
          simp only [INT_MIN, INT_MAX]
          omega
        rw [render_cons]
        simp only [read_from_file_loop, fscanf_d_record ws hws d h1' h7' t hst' (render rs),
          fscanf_text_record t hst' (render rs)]
        simp only [Option.any_some, hlen, hrange, decide_False, Bool.or_false, Bool.false_eq_true,
          if_false, Bool.or_eq_true, decide_eq_true_eq, create_note, zeroed, hbucket, hadd, bind,
          Except.bind]
        simp only [List.singleton_append] at hrun
        simp only [show (1 : Int) + 1 ≠ 2 ↔ False by decide, if_false]
        rw [hrun]
        simp only [List.length_cons, Nat.cast_add, Nat.cast_one]
        congr 3
        omega
      · intro j
        rw [hview' j, hview2 j, List.append_assoc]
        congr 1
        have hiff : ((d - 1).toNat = j) ↔ d = (j : Int) + 1 := by omega
        by_cases hdj : d = (j : Int) + 1
        · rw [if_pos (hiff.mpr hdj), List.filter_cons_of_pos (by simpa using hdj)]
          rfl
        · rw [if_neg (fun e => hdj (hiff.mp e)), List.filter_cons_of_neg (by simpa using hdj)]
          rfl

/-! ## Counting notes -/

theorem get_amount_notes_loop_eq {h : Heap} {t : List Nat} :
    ∀ {a : Nat} {fuel : Nat} (amount : Int), IsList h (some a) (a :: t) →
      (a :: t).length ≤ fuel →
      get_amount_notes_loop h fuel a amount = .ok (amount + ((a :: t).length : Nat)) := by
  induction t with
  | nil =>
    intro a fuel amount hl hf
    obtain ⟨_, n, hc, ht⟩ := hl
    have hn : n.next = none := ht
    cases fuel with
    | zero => simp at hf
    | succ k => simp [get_amount_notes_loop, hc, hn]
  | cons b t ih =>
    intro a fuel amount hl hf
    obtain ⟨_, n, hc, ht⟩ := hl
    have hn : n.next = some b := ht.1
    rw [hn] at ht
    cases fuel with
    | zero => simp at hf
    | succ k =>
      have hk : (b :: t).length ≤ k := by
        simp only [List.length_cons] at hf ⊢
        omega
      simp only [get_amount_notes_loop, hc, hn, ih _ ht hk, List.length_cons, Nat.cast_add,
        Nat.cast_one, Except.ok.injEq]
      omega

/-- With fuel for every note, `get_amount_notes` returns the length of the list. -/
theorem get_amount_notes_eq {h : Heap} {first : Ptr} {l : List Nat} {fuel : Nat}
    (hl : IsList h first l) (hf : l.length ≤ fuel) :
    get_amount_notes fuel h first = .ok (l.length : Nat) := by
  cases l with
  | nil =>
    have hfirst : first = none := hl
    subst hfirst
    rfl
  | cons a t =>
    have hfirst : first = some a := hl.1
    subst hfirst
    simp only [get_amount_notes, get_amount_notes_loop_eq 0 hl hf, Int.zero_add]

theorem get_amount_notes_by_day_loop_eq {fuel : Nat} {h : Heap} {notes : List Ptr}
    {contents : List (List Nat)} (hall : List.Forall₂ (IsList h) notes contents)
    (hf : ∀ l ∈ contents, l.length ≤ fuel) :
    ∀ (k i : Nat) (total : Int), i + k = notes.length →
      get_amount_notes_by_day_loop fuel h notes k i total
        = .ok (total + (((contents.drop i).flatten.length : Nat) : Int)) := by
  have hlen := hall.length_eq
  intro k
  induction k with
  | zero =>
    intro i total hi
    have : contents.length ≤ i := by omega
    simp [get_amount_notes_by_day_loop, List.drop_eq_nil_of_le this]
  | succ k ih =>
    intro i total hi
    have hi1 : i < notes.length := by omega
    have hi2 : i < contents.length := by omega
    have hlist : IsList h notes[i] contents[i] := by
      have := hall.get hi1 hi2
      simpa using this
    have hfi : contents[i].length ≤ fuel := hf _ (List.getElem_mem hi2)
    rw [List.drop_eq_getElem_cons hi2, List.flatten_cons, List.length_append]
    simp only [get_amount_notes_by_day_loop, bucket_nat hi1, get_amount_notes_eq hlist hfi, bind,
      Except.bind, ih (i + 1) _ (by omega), Nat.cast_add, Except.ok.injEq]
    omega

/-- In a well-formed store `get_amount_notes_by_day` returns the number of
notes of all buckets together. -/
theorem get_amount_notes_by_day_eq {fuel : Nat} {h : Heap} {notes : List Ptr}
    {contents : List (List Nat)} (hw : WfStore h notes contents)
    (hf : ∀ l ∈ contents, l.length ≤ fuel) :
    get_amount_notes_by_day fuel h notes = .ok ((contents.flatten.length : Nat) : Int) := by
  unfold get_amount_notes_by_day
  rw [get_amount_notes_by_day_loop_eq hw.2 hf DAYS_IN_WEEK 0 0 (by rw [hw.1]; simp)]
  simp

theorem Loaded.wf {h : Heap} {notes : List Ptr} {cont : List (List Nat)}
    (hL : Loaded h notes cont) : WfStore h notes cont := by
  refine ⟨hL.len, List.forall₂_iff_get.mpr ⟨by rw [hL.len, hL.clen], ?_⟩⟩
  intro i h1 h2
  have hi : i < DAYS_IN_WEEK := by rw [← hL.len]; exact h1
  have := (hL.lists i hi).isList
  rw [List.getElem?_eq_getElem h1, List.getElem?_eq_getElem h2] at this
  simpa using this

theorem length_le_flatten_length {l : List Nat} :
    ∀ {cs : List (List Nat)}, l ∈ cs → l.length ≤ cs.flatten.length := by
  intro cs
  induction cs with
  | nil => intro hm; cases hm
  | cons c cs ih =>
    intro hm
    simp only [List.flatten_cons, List.length_append]
    rcases List.mem_cons.mp hm with rfl | hm'
    · omega
    · have := ih hm'
      omega

/-- In a store that keeps the day of a note equal to its bucket number plus
one, the records of day `j + 1` among all records are those of bucket `j`. -/
theorem filter_day (h : Heap) :
    ∀ (cs : List (List Nat)) (off : Nat),
      (∀ (i : Nat) (l : List Nat), cs[i]? = some l → ∀ a ∈ l, day_at h a = (off : Int) + i + 1) →
      ∀ j : Nat, (cs.flatten.map (entry h)).filter (fun r => r.1 = (j : Int) + 1)
        = if off ≤ j then (cs[j - off]?.getD []).map (entry h) else [] := by
  intro cs
  induction cs with
  | nil =>
    intro off _ j
    simp
  | cons c cs ih =>
    intro off hday j
    have hrest := ih (off + 1) (by
      intro i l hl a ha
      have := hday (i + 1) l (by simpa using hl) a ha
      rw [this]
      push_cast
      omega) j
    have hc : ∀ a ∈ c, day_at h a = (off : Int) + 1 := by
      intro a ha
      have := hday 0 c (by simp) a ha
      simpa using this
    rw [List.flatten_cons, List.map_append, List.filter_append, hrest]
    by_cases hoj : off = j
    · subst hoj
      have hall : (c.map (entry h)).filter (fun r => r.1 = (off : Int) + 1) = c.map (entry h) := by
        rw [List.filter_eq_self]
        intro r hr
        obtain ⟨a, ha, rfl⟩ := List.mem_map.mp hr
        simpa [entry] using hc a ha
      rw [hall]
      simp
    · have hnone : (c.map (entry h)).filter (fun r => r.1 = (j : Int) + 1) = [] := by
        rw [List.filter_eq_nil_iff]
        intro r hr
        obtain ⟨a, ha, rfl⟩ := List.mem_map.mp hr
        have := hc a ha
        simp only [entry, decide_eq_true_eq, this]
        omega
      rw [hnone, List.nil_append]
      by_cases hlt : off ≤ j
      · have h1 : off + 1 ≤ j := by omega
        have h2 : j - off = (j - (off + 1)) + 1 := by omega
        rw [if_pos h1, if_pos hlt, h2, List.getElem?_cons_succ]
      · have h1 : ¬ off + 1 ≤ j := by omega
        rw [if_neg h1, if_neg hlt]

/-! ## Round trip -/

theorem file_format_eq_render (h : Heap) (contents : List (List Nat)) :
    file_format h contents = render (contents.flatten.map (entry h)) := by
  unfold file_format render
  rw [List.map_map]
  rfl

theorem loaded_empty (h0 : Heap) :
    Loaded h0 empty_store (List.replicate DAYS_IN_WEEK []) := by
  refine ⟨by simp [empty_store], by simp, ?_, ?_⟩
  · intro i hi
    simp only [empty_store, List.getElem?_replicate_of_lt hi, Option.getD_some]
    rfl
  · intro i j _ a ha
    by_cases hi : i < DAYS_IN_WEEK
    · simp only [List.getElem?_replicate_of_lt hi, Option.getD_some] at ha
      cases ha
    · rw [List.getElem?_eq_none (by simpa using hi)] at ha
      cases ha

theorem flatten_map_map_length {α β : Type} (f : α → β) (cs : List (List α)) :
    (cs.map (List.map f)).flatten.length = cs.flatten.length := by
  induction cs with
  | nil => rfl
  | cons c cs ih => simp [ih]

/-- C7 (amended): round trip.  For every well-formed store in which each note
of bucket `i` has day `i + 1` and a text that is not empty, shorter than 100
characters, without newline and not starting with white space, `save_to_file`
writes a file, and `read_from_file` on that file, from an empty store and with
an allocator whose blocks have `NULL` links, ends with a well-formed store that
has the same (day, text) pairs in the same order in every bucket; it reports
the number of notes as read and as total. -/
theorem save_then_read (h : Heap) (notes : List Ptr) (contents : List (List Nat))
    (hw : WfStore h notes contents)
    (hmodel : ∀ (i : Nat) (l : List Nat), contents[i]? = some l →
      ∀ a ∈ l, day_at h a = (i : Int) + 1 ∧ Storable (text_at h a))
    (fuel : Nat) (hf : contents.flatten.length < fuel) (h0 : Heap) :
    ∃ file h' notes' contents',
      save_to_file fuel h notes true = .ok (some file) ∧
      read_from_file fuel zeroed h0 empty_store (some file)
        = .ok (h', notes', some ((contents.flatten.length : Nat), (contents.flatten.length : Nat))) ∧
      WfStore h' notes' contents' ∧
      contents'.map (List.map (entry h')) = contents.map (List.map (entry h)) := by
  have hclen : contents.length = DAYS_IN_WEEK := by rw [← hw.2.length_eq]; exact hw.1
  have hfl : ∀ l ∈ contents, l.length ≤ fuel := by
    intro l hl
    have := length_le_flatten_length hl
    omega
  have hsave : save_to_file fuel h notes true = .ok (some (file_format h contents)) :=
    save_to_file_eq hw hfl
  have hvalid : ∀ r ∈ contents.flatten.map (entry h), 1 ≤ r.1 ∧ r.1 ≤ 7 ∧ Storable r.2 := by
    intro r hr
    obtain ⟨a, ha, rfl⟩ := List.mem_map.mp hr
    obtain ⟨l, hl, hal⟩ := List.mem_flatten.mp ha
    obtain ⟨i, hi, rfl⟩ := List.getElem_of_mem hl
    obtain ⟨hday, hst⟩ := hmodel i _ (List.getElem?_eq_getElem hi) a hal
    have hi7 : i < 7 := by
      rw [hclen] at hi
      exact hi
    refine ⟨?_, ?_, hst⟩
    · simp only [entry, hday]; omega
    · simp only [entry, hday]; omega
  obtain ⟨h', notes', cont', hrun, hL', hview⟩ :=
    read_from_file_loop_render fuel _ hvalid fuel h0 empty_store
      (List.replicate DAYS_IN_WEEK []) [] 0 (loaded_empty h0) (Or.inl rfl)
      (by simp only [List.length_map]; exact hf)
      (by
        intro j
        have : ((List.replicate DAYS_IN_WEEK ([] : List Nat))[j]?.getD []).length = 0 := by
          by_cases hj : j < DAYS_IN_WEEK
          · simp [List.getElem?_replicate_of_lt hj]
          · rw [List.getElem?_eq_none (by simpa using hj)]
            rfl
        rw [this]
        simp only [List.length_map]
        omega)
  have hfilter := filter_day h contents 0 (by
    intro i l hl a ha
    rw [(hmodel i l hl a ha).1]
    simp)
  have hwf' := hL'.wf
  have hclen' : cont'.length = DAYS_IN_WEEK := hL'.clen
  have hvieweq : cont'.map (List.map (entry h')) = contents.map (List.map (entry h)) := by
    apply List.ext_getElem?
    intro j
    rw [List.getElem?_map, List.getElem?_map]
    by_cases hj : j < DAYS_IN_WEEK
    · have hv := hview j
      rw [hfilter j] at hv
      have hj1 : j < cont'.length := by rw [hclen']; exact hj
      have hj2 : j < contents.length := by rw [hclen]; exact hj
      have hrep : (List.replicate DAYS_IN_WEEK ([] : List Nat))[j]? = some [] :=
        List.getElem?_replicate_of_lt hj
      rw [hrep] at hv
      simp only [Option.getD_some, List.map_nil, List.nil_append, Nat.zero_le, if_true,
        Nat.sub_zero, List.getElem?_eq_getElem hj1, List.getElem?_eq_getElem hj2] at hv
      rw [List.getElem?_eq_getElem hj1, List.getElem?_eq_getElem hj2]
      simp only [Option.map_some', hv]
    · rw [List.getElem?_eq_none (by rw [hclen']; omega),
        List.getElem?_eq_none (by rw [hclen]; omega)]
      rfl
  have hcount : cont'.flatten.length = contents.flatten.length := by
    rw [← flatten_map_map_length (entry h') cont', hvieweq, flatten_map_map_length]
  have hfl' : ∀ l ∈ cont', l.length ≤ fuel := by
    intro l hl
    have := length_le_flatten_length hl
    omega
  have hamount := get_amount_notes_by_day_eq hwf' hfl'
  refine ⟨_, h', notes', cont', hsave, ?_, hwf', hvieweq⟩
  rw [file_format_eq_render]
  simp only [List.nil_append, List.length_map, Int.zero_add] at hrun
  simp only [read_from_file, hrun, hamount, hcount, bind, Except.bind, pure, Except.pure]

theorem wf_rest_gym_model :
    ∀ (i : Nat) (l : List Nat), [[0], [], [], [], [], [1], ([] : List Nat)][i]? = some l →
      ∀ a ∈ l, day_at heap_rest_gym a = (i : Int) + 1 ∧ Storable (text_at heap_rest_gym a) := by
  intro i l hl a ha
  have hst0 : Storable (text_at heap_rest_gym 0) := by
    refine ⟨by decide, by decide, by decide, ?_⟩
    intro c hc
    have : c = 'R' := by
      have h0 : (text_at heap_rest_gym 0).head? = some 'R' := by decide
      rw [h0] at hc
      exact (Option.some.inj hc).symm
    subst this
    decide
  have hst1 : Storable (text_at heap_rest_gym 1) := by
    refine ⟨by decide, by decide, by decide, ?_⟩
    intro c hc
    have : c = 'G' := by
      have h0 : (text_at heap_rest_gym 1).head? = some 'G' := by decide
      rw [h0] at hc
      exact (Option.some.inj hc).symm
    subst this
    decide
  match i, hl with
  | 0, hl =>
    have hl0 : l = [0] := by simpa using hl.symm
    subst hl0
    have ha0 : a = 0 := by simpa using ha
    subst ha0
    exact ⟨by decide, hst0⟩
  | 5, hl =>
    have hl0 : l = [1] := by simpa using hl.symm
    subst hl0
    have ha0 : a = 1 := by simpa using ha
    subst ha0
    exact ⟨by decide, hst1⟩
  | 1, hl | 2, hl | 3, hl | 4, hl | 6, hl =>
    have hl0 : l = [] := by simpa using hl.symm
    subst hl0
    cases ha
  | n + 7, hl => simp at hl

theorem save_then_read_witness :
    (∃ file h' notes' contents',
      save_to_file 3 heap_rest_gym store_rest_gym true = .ok (some file) ∧
      read_from_file 3 zeroed [] empty_store (some file)
        = .ok (h', notes', some (([[0], [], [], [], [], [1], ([] : List Nat)].flatten.length : Nat),
            ([[0], [], [], [], [], [1], ([] : List Nat)].flatten.length : Nat))) ∧
      WfStore h' notes' contents' ∧
      contents'.map (List.map (entry h'))
        = [[0], [], [], [], [], [1], ([] : List Nat)].map (List.map (entry heap_rest_gym))) ∧
    read_from_file 3 zeroed [] empty_store (some "1\nRest\n6\nGym\n".toList)
      = .ok (heap_rest_gym, store_rest_gym, some (2, 2)) :=
  ⟨save_then_read heap_rest_gym store_rest_gym _ wf_rest_gym wf_rest_gym_model 3 (by decide) [],
    by decide⟩

/-- C7, as stated, fails: a Sunday note with the text " Rest" satisfies the
stated data model (day 1 in bucket 0, text not empty, at most 100 characters,
no newline); its file is "1\n Rest\n", and reading that file gives a note with
the text "Rest", because the text scan skips leading white space. -/
theorem round_trip_leading_blank_counterexample :
    WfStore heap_blank store_blank [[0], [], [], [], [], [], []] ∧
    day_at heap_blank 0 = 1 ∧ text_at heap_blank 0 ≠ [] ∧
    (text_at heap_blank 0).length ≤ 100 ∧ '\n' ∉ text_at heap_blank 0 ∧
    save_to_file 2 heap_blank store_blank true = .ok (some "1\n Rest\n".toList) ∧
    read_from_file 2 zeroed [] empty_store (some "1\n Rest\n".toList)
      = .ok ([some ⟨"Rest".toList, 1, none, none⟩], store_blank, some (1, 1)) ∧
    entry [some ⟨"Rest".toList, 1, none, none⟩] 0 ≠ entry heap_blank 0 :=
  ⟨⟨rfl, .cons ⟨rfl, _, rfl, rfl⟩
      (.cons rfl (.cons rfl (.cons rfl (.cons rfl (.cons rfl (.cons rfl .nil))))))⟩,
    by decide, by decide, by decide, by decide, by decide, by decide, by decide⟩

/-! ## Creating notes -/

theorem create_note_cell (h : Heap) (junk : Ptr × Ptr) (text : List Char) (day : Int) :
    cell (create_note h junk text day).2 (create_note h junk text day).1
      = some { text := text, day := day + 1, next := junk.1, prev := junk.2 } := by
  simp only [create_note]
  exact cell_append_self h _

theorem create_note_frame (h : Heap) (junk : Ptr × Ptr) (text : List Char) (day : Int)
    {a : Nat} (ha : a ≠ (create_note h junk text day).1) :
    cell (create_note h junk text day).2 a = cell h a := by
  simp only [create_note] at ha ⊢
  exact cell_append_ne h _ ha

/-- C13, as stated, fails: `create_note` called with the day argument 1
returns a note whose day field is 2. -/
theorem create_note_day_counterexample :
    day_at (create_note [] (none, none) "Rest".toList 1).2
      (create_note [] (none, none) "Rest".toList 1).1 = 2 ∧
    day_at (create_note [] (none, none) "Rest".toList 1).2
      (create_note [] (none, none) "Rest".toList 1).1 ≠ 1 := by
  decide

/-- C13 (amended): for every text and every day argument `d`, the note that
`create_note(text, d)` returns has the text `text` and the day field `d + 1`;
the notes that were there before are not touched. -/
theorem create_note_text_day (h : Heap) (junk : Ptr × Ptr) (text : List Char) (d : Int) :
    text_at (create_note h junk text d).2 (create_note h junk text d).1 = text ∧
    day_at (create_note h junk text d).2 (create_note h junk text d).1 = d + 1 ∧
    ∀ a, a ≠ (create_note h junk text d).1 → cell (create_note h junk text d).2 a = cell h a := by
  refine ⟨?_, ?_, fun a ha => create_note_frame h junk text d ha⟩
  · simp only [text_at, create_note_cell]
  · simp only [day_at, create_note_cell]

theorem scanf_line_length (f : FILE) (t : List Char) (ht : (scanf_line f).2.1 = some t) :
    t.length ≤ 100 := by
  unfold scanf_line at ht
  simp only at ht
  split at ht
  · cases ht
  · split at ht
    · cases ht
    · simp only [Option.some.injEq] at ht
      rw [← ht]
      exact List.length_take_le _ _

theorem fscanf_text_length (f : FILE) (t : List Char) (ht : (fscanf_text f).2.1 = some t) :
    t.length ≤ 100 := by
  unfold fscanf_text at ht
  simp only at ht
  split at ht
  · cases ht
  · split at ht
    · cases ht
    · split at ht
      · simp only [Option.some.injEq] at ht
        rw [← ht]
        exact List.length_take_le _ _
      · simp only [Option.some.injEq] at ht
        rw [← ht]
        exact List.length_take_le _ _

/-- C14, as stated, fails: `create_note` on a text of 101 characters returns a
note with all 101 characters. -/
theorem create_note_long_text_counterexample :
    (List.replicate 101 'a').length = 101 ∧
    MAX_NOTE_LENGTH <
      (text_at (create_note [] (none, none) (List.replicate 101 'a') 0).2
        (create_note [] (none, none) (List.replicate 101 'a') 0).1).length := by
  decide

/-- C14 (amended): `create_note` neither truncates nor rejects: the text of
the note it returns is the text it was given, character for character, so it
has the same length, also when that is more than `MAX_NOTE_LENGTH`.  The bound
lies with the callers: a text that comes from one of the `%100[^\n]` scans has
at most 100 characters. -/
theorem create_note_copies_text (h : Heap) (junk : Ptr × Ptr) (text : List Char) (d : Int) :
    text_at (create_note h junk text d).2 (create_note h junk text d).1 = text ∧
    (text_at (create_note h junk text d).2 (create_note h junk text d).1).length = text.length ∧
    (MAX_NOTE_LENGTH < text.length →
      MAX_NOTE_LENGTH <
        (text_at (create_note h junk text d).2 (create_note h junk text d).1).length) ∧
    (∀ (f : FILE) (t : List Char), (scanf_line f).2.1 = some t → t.length ≤ MAX_NOTE_LENGTH) ∧
    (∀ (f : FILE) (t : List Char), (fscanf_text f).2.1 = some t → t.length ≤ MAX_NOTE_LENGTH) := by
  have htext : text_at (create_note h junk text d).2 (create_note h junk text d).1 = text := by
    simp only [text_at, create_note_cell]
  refine ⟨htext, ?_, ?_, scanf_line_length, fscanf_text_length⟩
  · rw [htext]
  · intro hlong
    rw [htext]
    exact hlong

/-- C18: `create_note` never writes `next` and `prev`: the note it returns
has the links that the allocated block happened to hold.  With a block whose
`next` bytes hold the address 0 of an older note, the bucket made of the new
note alone counts 2 notes and has the older note as its last note. -/
theorem create_note_keeps_block_links :
    (∀ (h : Heap) (junk : Ptr × Ptr) (text : List Char) (d : Int),
      (cell (create_note h junk text d).2 (create_note h junk text d).1).map
        (fun n => (n.next, n.prev)) = some junk) ∧
    add_note 2 (create_note heap_one (some 0, none) "Rest".toList 0).2 none
        (some (create_note heap_one (some 0, none) "Rest".toList 0).1)
      = .ok (some 1, (create_note heap_one (some 0, none) "Rest".toList 0).2) ∧
    get_amount_notes 2 (create_note heap_one (some 0, none) "Rest".toList 0).2 (some 1) = .ok 2 ∧
    get_last_note 2 (create_note heap_one (some 0, none) "Rest".toList 0).2 (some 1)
      = .ok (some 0) := by
  refine ⟨?_, by decide, by decide, by decide⟩
  intro h junk text d
  rw [create_note_cell]
  rfl

/-! ## Buffers -/

/-- C20: a line of 100 characters makes every `%100[^\n]` scan store 100
characters, so with the terminating zero it writes 101 bytes into a buffer of
`MAX_NOTE_LENGTH = 100` bytes; no scan writes more than 101. -/
theorem scan_writes_101_bytes :
    (scanf_line { rest := List.replicate 100 'a' ++ ['\n'], eof := false }).2.1.map bytes_written
      = some 101 ∧
    (fscanf_text { rest := List.replicate 100 'a' ++ ['\n'], eof := false }).2.1.map bytes_written
      = some 101 ∧
    MAX_NOTE_LENGTH < 101 ∧
    (∀ (f : FILE) (t : List Char), (scanf_line f).2.1 = some t → bytes_written t ≤ 101) ∧
    (∀ (f : FILE) (t : List Char), (fscanf_text f).2.1 = some t → bytes_written t ≤ 101) := by
  refine ⟨by decide, by decide, by decide, ?_, ?_⟩
  · intro f t ht
    have := scanf_line_length f t ht
    simp only [bytes_written]
    omega
  · intro f t ht
    have := fscanf_text_length f t ht
    simp only [bytes_written]
    omega

/-! ## Counting, as a whole -/

/-- C17: for a well-formed list `get_amount_notes` (given fuel for its notes)
returns the number of notes reachable from the head, 0 for the empty bucket;
after `add_note` was called with N fresh notes on an empty bucket it returns
N; and in a well-formed store `get_amount_notes_by_day` returns the sum of what
`get_amount_notes` returns on the buckets. -/
theorem get_amount_notes_counts :
    (∀ (h : Heap) (first : Ptr) (l : List Nat) (fuel : Nat), IsList h first l →
      l.length ≤ fuel → get_amount_notes fuel h first = .ok (l.length : Nat)) ∧
    (∀ (h : Heap) (fuel : Nat), get_amount_notes fuel h none = .ok 0) ∧
    (∀ (h : Heap) (notes : List Nat) (fuel : Nat), (∀ b ∈ notes, Unlinked h b) →
      notes.Nodup → notes.length ≤ fuel →
      ∃ head h', add_notes fuel h none notes = .ok (head, h') ∧
        get_amount_notes fuel h' head = .ok (notes.length : Nat)) ∧
    (∀ (h : Heap) (notes_by_day : List Ptr) (contents : List (List Nat)) (fuel : Nat),
      WfStore h notes_by_day contents → (∀ l ∈ contents, l.length ≤ fuel) →
      ∃ amounts : List Int,
        List.Forall₂ (fun p n => get_amount_notes fuel h p = .ok n) notes_by_day amounts ∧
        amounts.length = DAYS_IN_WEEK ∧
        get_amount_notes_by_day fuel h notes_by_day = .ok amounts.sum) := by
  refine ⟨fun h first l fuel hl hf => get_amount_notes_eq hl hf, fun _ _ => rfl, ?_, ?_⟩
  · intro h notes fuel hfresh hnd hf
    have hl0 : IsDList h none none [] := rfl
    obtain ⟨h', hrun, hd, _, _⟩ :=
      add_notes_append notes hl0 hfresh (by simpa using hnd) (by simpa using hf)
    simp only [List.nil_append] at hrun hd
    exact ⟨_, h', hrun, get_amount_notes_eq hd.isList hf⟩
  · intro h notes_by_day contents fuel hw hf
    refine ⟨contents.map (fun l => ((l.length : Nat) : Int)), ?_, ?_, ?_⟩
    · rw [List.forall₂_map_right_iff]
      have key : ∀ {ns : List Ptr} {cs : List (List Nat)}, List.Forall₂ (IsList h) ns cs →
          (∀ l ∈ cs, l.length ≤ fuel) →
          List.Forall₂ (fun p l => get_amount_notes fuel h p = .ok ((l.length : Nat) : Int))
            ns cs := by
        intro ns cs hall
        induction hall with
        | nil => intro _; exact .nil
        | cons hab _ ih =>
          intro hfc
          exact .cons (get_amount_notes_eq hab (hfc _ (List.mem_cons_self _ _)))
            (ih (fun l hl => hfc l (List.mem_cons_of_mem _ hl)))
      exact key hw.2 hf
    · rw [List.length_map, ← hw.2.length_eq]
      exact hw.1
    · rw [get_amount_notes_by_day_eq hw hf]
      congr 1
      rw [List.length_flatten]
      clear hw hf
      induction contents with
      | nil => rfl
      | cons c cs ih => simp [ih]

theorem get_amount_notes_counts_witness :
    get_amount_notes 3 heap3_linked (some 0) = .ok (([0, 1, 2] : List Nat).length : Nat) :=
  get_amount_notes_counts.1 heap3_linked (some 0) [0, 1, 2] 3
    ⟨rfl, _, rfl, rfl, _, rfl, rfl, _, rfl, rfl⟩ (by decide)

theorem create_note_copies_text_witness :
    text_at (create_note heap_one (some 0, none) (List.replicate 101 'a') 5).2
        (create_note heap_one (some 0, none) (List.replicate 101 'a') 5).1
      = List.replicate 101 'a' ∧
    MAX_NOTE_LENGTH <
      (text_at (create_note heap_one (some 0, none) (List.replicate 101 'a') 5).2
        (create_note heap_one (some 0, none) (List.replicate 101 'a') 5).1).length ∧
    ("Rest".toList).length ≤ MAX_NOTE_LENGTH ∧
    (List.replicate 100 'a').length ≤ MAX_NOTE_LENGTH :=
  ⟨(create_note_copies_text heap_one (some 0, none) (List.replicate 101 'a') 5).1,
    (create_note_copies_text heap_one (some 0, none) (List.replicate 101 'a') 5).2.2.1
      (by decide),
    (create_note_copies_text heap_one (some 0, none) (List.replicate 101 'a') 5).2.2.2.1
      { rest := "Rest\n".toList, eof := false } "Rest".toList (by decide),
    (create_note_copies_text heap_one (some 0, none) (List.replicate 101 'a') 5).2.2.2.2
      { rest := List.replicate 150 'a', eof := false } (List.replicate 100 'a') (by decide)⟩

theorem scan_writes_101_bytes_witness :
    bytes_written "Rest".toList ≤ 101 :=
  scan_writes_101_bytes.2.2.2.1 { rest := "Rest\n".toList, eof := false } "Rest".toList
    (by decide)

/-! ## Reading a day -/

theorem c_le_chain (day : Int) : c_le (c_le 1 day) DAYS_IN_WEEK = 1 := by
  unfold c_le
  by_cases h : (1 : Int) ≤ day
  · simp [h, DAYS_IN_WEEK]
  · simp [h, DAYS_IN_WEEK]

/-- What `read_day` returns: the number that the scan read, whatever it is. -/
theorem read_day_eq {k : Nat} {stdin : FILE} {r : Int} {d : Int} {s1 : FILE}
    (hscan : scanf_d stdin = (r, some d, s1)) (hmin : INT_MIN ≤ d) (hmax : d ≤ INT_MAX) :
    read_day (k + 1) stdin = .ok (d, s1) := by
  have hrange : ¬ (d < INT_MIN ∨ INT_MAX < d) := by omega
  simp only [read_day, hscan, hrange, if_false, c_le_chain]
  simp

/-- C15: `read_day` has no working range check.  The test
`!(1 <= day <= DAYS_IN_WEEK)` is never true, so whenever the scan reads a
number `d` that fits an `int`, `read_day` returns `d` at once and never asks
again, also for a `d` outside 1..7. -/
theorem read_day_returns_first_entered (k : Nat) (stdin : FILE) (r : Int) (d : Int) (s1 : FILE)
    (hscan : scanf_d stdin = (r, some d, s1)) (hmin : INT_MIN ≤ d) (hmax : d ≤ INT_MAX) :
    read_day (k + 1) stdin = .ok (d, s1) ∧ (∀ day : Int, c_le (c_le 1 day) DAYS_IN_WEEK ≠ 0) := by
  refine ⟨read_day_eq hscan hmin hmax, ?_⟩
  intro day
  rw [c_le_chain]
  decide

theorem read_day_returns_first_entered_witness :
    (read_day (0 + 1) { rest := "9\n3\n".toList, eof := false }
        = .ok (9, { rest := "\n3\n".toList, eof := false }) ∧
      (∀ day : Int, c_le (c_le 1 day) DAYS_IN_WEEK ≠ 0)) ∧
    ¬ ((1 : Int) ≤ 9 ∧ (9 : Int) ≤ 7) :=
  ⟨read_day_returns_first_entered 0 { rest := "9\n3\n".toList, eof := false } 1 9
    { rest := "\n3\n".toList, eof := false } (by decide) (by decide) (by decide), by decide⟩

/-! ## Sequences of `add_note` and `delete_note` -/

theorem run_ops_append {fuel : Nat} :
    ∀ (ops1 : List Op) {h : Heap} {first : Ptr} {r : Ptr × Heap} (ops2 : List Op),
      run_ops fuel h first ops1 = .ok r →
      run_ops fuel h first (ops1 ++ ops2) = run_ops fuel r.2 r.1 ops2 := by
  intro ops1
  induction ops1 with
  | nil =>
    intro h first r ops2 hr
    simp only [run_ops, Except.ok.injEq] at hr
    rw [← hr]
    rfl
  | cons op ops1 ih =>
    intro h first r ops2 hr
    cases op with
    | add a =>
      simp only [run_ops, List.cons_append] at hr ⊢
      cases hadd : add_note fuel h first (some a) with
      | error e => rw [hadd] at hr; cases hr
      | ok r1 =>
        rw [hadd] at hr
        simp only at hr ⊢
        exact ih ops2 hr
    | del a =>
      simp only [run_ops, List.cons_append] at hr ⊢
      cases hdel : delete_note h first (some a) with
      | error e => rw [hdel] at hr; cases hr
      | ok r1 =>
        rw [hdel] at hr
        simp only at hr ⊢
        exact ih ops2 hr

theorem run_ops_adds {fuel : Nat} :
    ∀ (notes : List Nat) (h : Heap) (first : Ptr),
      run_ops fuel h first (notes.map Op.add) = add_notes fuel h first notes := by
  intro notes
  induction notes with
  | nil => intro h first; rfl
  | cons a notes ih =>
    intro h first
    simp only [List.map_cons, run_ops, add_notes]
    cases add_note fuel h first (some a) with
    | error e => rfl
    | ok r => exact ih r.2 r.1

/-- The `next` chain after an interior note `t` was unlinked and freed. -/
theorem IsList.unlink {h : Heap} {p t s : Nat} {post : List Nat} {np : Note}
    (hcp : cell h p = some np) :
    ∀ {pre : List Nat} {hd : Ptr}, IsList h hd (pre ++ p :: t :: s :: post) →
      IsList ((store h p { np with next := some s }).set t none) hd (pre ++ p :: s :: post) := by
  intro pre
  induction pre with
  | nil =>
    intro hd hl
    have hnd : (p :: t :: s :: post).Nodup := IsList.nodup hl
    obtain ⟨hhd, np', hcp', ht⟩ := hl
    obtain ⟨_, nt, hct, hs⟩ := ht
    have hpt : p ≠ t := by
      intro e
      subst e
      simp at hnd
    refine ⟨hhd, { np with next := some s }, ?_, ?_⟩
    · rw [cell_set_ne _ (Ne.symm hpt)]
      exact cell_store_self _ hcp
    · have hs' : IsList h (some s) (s :: post) := ⟨rfl, hs.2⟩
      refine IsList.frame ?_ hs'
      intro a ha
      have hta : t ≠ a := by
        intro e
        subst e
        have := (List.nodup_cons.mp (List.nodup_cons.mp hnd).2).1
        exact this ha
      have hpa : p ≠ a := by
        intro e
        subst e
        exact (List.nodup_cons.mp hnd).1 (List.mem_cons_of_mem _ ha)
      rw [cell_set_ne _ hta, cell_store_ne _ hpa]
  | cons c pre ih =>
    intro hd hl
    have hnd : (c :: (pre ++ p :: t :: s :: post)).Nodup := IsList.nodup hl
    obtain ⟨hhd, nc, hcc, hrest⟩ := hl
    have hcn := (List.nodup_cons.mp hnd).1
    have hcp' : p ≠ c := by
      intro e
      subst e
      exact hcn (by simp)
    have hct' : t ≠ c := by
      intro e
      subst e
      exact hcn (by simp)
    refine ⟨hhd, nc, ?_, ih hrest⟩
    rw [cell_set_ne _ hct', cell_store_ne _ hcp']
    exact hcc

/-- After an interior note `t` was deleted, `delete_note` on its successor `s`
is undefined: `s.prev` still holds the address of the freed `t`, and the call
writes `t->next`. -/
theorem delete_note_successor_undefined {h : Heap} {hd : Ptr} {pre post : List Nat}
    {p t s : Nat} (hl : IsDList h none hd (pre ++ p :: t :: s :: post)) :
    ∃ h', delete_note h hd (some t) = .ok (hd, h') ∧ IsList h' hd (pre ++ p :: s :: post) ∧
      delete_note h' hd (some s) = .error .undefined := by
  obtain ⟨h', np, ns, hdel, hcp, hp', hcs, hsp, hs', ht'⟩ := delete_note_interior_eval hl
  have hnd : (pre ++ p :: t :: s :: post).Nodup := IsList.nodup hl.isList
  have hpt : p ≠ t := by
    have hnd2 : (p :: t :: s :: post).Nodup := (List.nodup_append.mp hnd).2.1
    intro e
    subst e
    simp at hnd2
  have hh' : h' = (store h p { np with next := some s }).set t none := by
    obtain ⟨np2, nt, hcp2, hpn, hct, htp⟩ := IsDList.adjacent hl
    have hl2 : IsDList h none hd ((pre ++ [p]) ++ t :: s :: post) := by simpa using hl
    obtain ⟨nt', ns', hct', hts, _, _⟩ := IsDList.adjacent hl2
    rw [hct] at hct'
    cases hct'
    rw [hcp] at hcp2
    cases hcp2
    have hct1 : cell (store h p { np with next := some s }) t = some nt := by
      rw [cell_store_ne _ hpt]; exact hct
    have hev : delete_note h hd (some t)
        = .ok (hd, (store h p { np with next := some s }).set t none) := by
      simp only [delete_note, deref, hct, htp, hts, set_next, hcp, free_note, hct1, bind,
        Except.bind, pure, Except.pure]
    rw [hev] at hdel
    simp only [Except.ok.injEq, Prod.mk.injEq, true_and] at hdel
    exact hdel.symm
  refine ⟨h', hdel, ?_, ?_⟩
  · rw [hh']
    exact IsList.unlink hcp hl.isList
  · cases hn : ns.next with
    | none =>
      simp only [delete_note, deref, hs', hsp, hn, set_next, ht', bind, Except.bind]
    | some x =>
      simp only [delete_note, deref, hs', hsp, hn, set_next, ht', bind, Except.bind]

/-- C12: the list-shape invariant does not survive every sequence of calls.
After `add_note` built a list of at least three notes and `delete_note`
removed an interior note `t`, the successor `s` of `t` is still in the list,
and `delete_note` on `s` is undefined, because `s.prev` still points at the
freed note `t`. -/
theorem delete_twice_undefined (h0 : Heap) (pre post : List Nat) (p t s : Nat) (fuel : Nat)
    (hfresh : ∀ b ∈ pre ++ p :: t :: s :: post, Unlinked h0 b)
    (hnd : (pre ++ p :: t :: s :: post).Nodup)
    (hf : (pre ++ p :: t :: s :: post).length ≤ fuel) :
    (∃ head h', run_ops fuel h0 none ((pre ++ p :: t :: s :: post).map Op.add ++ [Op.del t])
        = .ok (head, h') ∧ IsList h' head (pre ++ p :: s :: post)) ∧
    run_ops fuel h0 none ((pre ++ p :: t :: s :: post).map Op.add ++ [Op.del t, Op.del s])
      = .error .undefined := by
  have hl0 : IsDList h0 none none [] := rfl
  obtain ⟨h, hrun, hd, _, _⟩ :=
    add_notes_append (pre ++ p :: t :: s :: post) hl0 hfresh (by simpa using hnd)
      (by simpa using hf)
  simp only [List.nil_append] at hrun hd
  obtain ⟨h', hdel, hlist, hundef⟩ := delete_note_successor_undefined hd
  have hadds : run_ops fuel h0 none ((pre ++ p :: t :: s :: post).map Op.add)
      = .ok ((pre ++ p :: t :: s :: post).head?, h) := by
    rw [run_ops_adds]
    exact hrun
  constructor
  · refine ⟨_, h', ?_, hlist⟩
    rw [run_ops_append _ _ hadds]
    simp only [run_ops, hdel]
  · rw [run_ops_append _ _ hadds]
    simp only [run_ops, hdel, hundef]

theorem delete_twice_undefined_witness :
    (∃ head h', run_ops 3 heap3 none (([] ++ 0 :: 1 :: 2 :: []).map Op.add ++ [Op.del 1])
        = .ok (head, h') ∧ IsList h' head ([] ++ 0 :: 2 :: [])) ∧
    run_ops 3 heap3 none (([] ++ 0 :: 1 :: 2 :: []).map Op.add ++ [Op.del 1, Op.del 2])
      = .error .undefined :=
  delete_twice_undefined heap3 [] [] 0 1 2 3 heap3_unlinked (by decide) (by decide)

/-- A run of the program: two notes are added to Monday, an unknown command
is ignored, the store is saved, the first note is deleted by keyword. -/
theorem main_example :
    main 8 env_zeroed empty_store
        "a 2 Buy milk\na 2 Call mom\nX\ns notes.txt\nd k milk\nq\n".toList []
      = .ok { heap := [none, some ⟨"Call mom".toList, 2, none, none⟩],
              notes := [none, some 1, none, none, none, none, none],
              stdin := { rest := ['\n'], eof := false },
              files := [("notes.txt".toList, "2\nBuy milk\n2\nCall mom\n".toList)] } := by
  decide

/-! ## The command loop -/

theorem bind_not_break {α : Type} (x : M α) (f : α → World) (c : Char)
    (r : World × Option Char × Bool)
    (hr : (x >>= fun a => (pure (f a, some c, false) : M (World × Option Char × Bool))) = .ok r) :
    r.2.2 = false := by
  cases x with
  | error e => cases hr
  | ok a =>
    simp only [bind, Except.bind, pure, Except.pure, Except.ok.injEq] at hr
    rw [← hr]

/-- A pass of the command loop that leaves the loop has the command `q` and
changes nothing but the input read. -/
theorem main_iteration_break {fuel : Nat} {env : Env} {w : World} {command : Option Char}
    {r : World × Option Char × Bool} (hr : main_iteration fuel env w command = .ok r)
    (hq : r.2.2 = true) :
    r.2.1 = some 'q' ∧ r.1 = { w with stdin := (scanf_c w.stdin).2 } := by
  unfold main_iteration at hr
  simp only at hr
  split at hr
  · cases hr
  · rename_i c hc
    split_ifs at hr with ha hd hp hf hs hrd hqq hh
    · rw [bind_not_break _ _ _ _ hr] at hq; cases hq
    · rw [bind_not_break _ _ _ _ hr] at hq; cases hq
    · rw [bind_not_break _ _ _ _ hr] at hq; cases hq
    · cases hfu : find_user fuel w.heap w.notes fuel (scanf_c w.stdin).2 with
      | error e =>
        rw [hfu] at hr
        cases hr
      | ok x =>
        rw [hfu] at hr
        simp only [bind, Except.bind] at hr
        have := bind_not_break (print_note w.heap x.1)
          (fun _ => { w with stdin := x.2 }) c r hr
        rw [this] at hq
        cases hq
    · rw [bind_not_break _ _ _ _ hr] at hq; cases hq
    · rw [bind_not_break _ _ _ _ hr] at hq; cases hq
    · simp only [pure, Except.pure, Except.ok.injEq] at hr
      rw [← hr, hqq]
      exact ⟨rfl, rfl⟩
    · simp only [pure, Except.pure, Except.ok.injEq] at hr
      rw [← hr] at hq
      cases hq
    · simp only [pure, Except.pure, Except.ok.injEq] at hr
      rw [← hr] at hq
      cases hq

/-- C19: when the command read is none of `a`, `d`, `p`, `f`, `s`, `r`, `h`,
`q`, a pass of the command loop changes nothing but the input read and does
not leave the loop; a pass that leaves the loop has the command `q` (and
changes nothing but the input read); and the command `q` leaves the loop. -/
theorem main_ignores_other_commands (fuel : Nat) (env : Env) (w : World)
    (command : Option Char) (c : Char) (s1 : FILE) (hread : scanf_c w.stdin = (some c, s1))
    (hc : c ∉ ['a', 'd', 'p', 'f', 's', 'r', 'h', 'q']) :
    main_iteration fuel env w command = .ok ({ w with stdin := s1 }, some c, false) ∧
    (∀ (fuel' : Nat) (env' : Env) (w' : World) (command' : Option Char)
        (r : World × Option Char × Bool),
      main_iteration fuel' env' w' command' = .ok r → r.2.2 = true →
        r.2.1 = some 'q' ∧ r.1 = { w' with stdin := (scanf_c w'.stdin).2 }) ∧
    (∀ (fuel' : Nat) (env' : Env) (w' : World) (command' : Option Char) (s' : FILE),
      scanf_c w'.stdin = (some 'q', s') →
        main_iteration fuel' env' w' command' = .ok ({ w' with stdin := s' }, some 'q', true)) := by
  refine ⟨?_, fun _ _ _ _ r hr hq => main_iteration_break hr hq, ?_⟩
  · simp only [List.mem_cons, List.mem_singleton, List.not_mem_nil, or_false, not_or] at hc
    obtain ⟨ha, hd, hp, hf, hs, hr, hh, hq⟩ := hc
    simp only [main_iteration, hread, Option.orElse, ha, hd, hp, hf, hs, hr, hh, hq, if_false,
      pure, Except.pure]
  · intro fuel' env' w' command' s' hread'
    simp only [main_iteration, hread', Option.orElse]
    rfl

theorem main_ignores_other_commands_witness :
    (main_iteration 1 env_zeroed
        { heap := heap_two_days, notes := store_two_days,
          stdin := { rest := "Q\nA\n".toList, eof := false }, files := [] } none
      = .ok ({ ({ heap := heap_two_days, notes := store_two_days,
                  stdin := { rest := "Q\nA\n".toList, eof := false }, files := [] } : World)
                with stdin := { rest := "\nA\n".toList, eof := false } }, some 'Q', false) ∧
      (∀ (fuel' : Nat) (env' : Env) (w' : World) (command' : Option Char)
          (r : World × Option Char × Bool),
        main_iteration fuel' env' w' command' = .ok r → r.2.2 = true →
          r.2.1 = some 'q' ∧ r.1 = { w' with stdin := (scanf_c w'.stdin).2 }) ∧
      (∀ (fuel' : Nat) (env' : Env) (w' : World) (command' : Option Char) (s' : FILE),
        scanf_c w'.stdin = (some 'q', s') →
          main_iteration fuel' env' w' command' = .ok ({ w' with stdin := s' }, some 'q', true))) :=
  main_ignores_other_commands 1 env_zeroed
    { heap := heap_two_days, notes := store_two_days,
      stdin := { rest := "Q\nA\n".toList, eof := false }, files := [] } none 'Q'
    { rest := "\nA\n".toList, eof := false } (by decide) (by decide)

/-! ## The day of a note and its bucket -/

theorem bucket_out_of_range {notes : List Ptr} {i : Int}
    (hi : i < 0 ∨ (notes.length : Int) ≤ i) : bucket notes i = .error .undefined := by
  unfold bucket
  by_cases h0 : 0 ≤ i
  · rw [if_pos h0]
    have hlen : notes.length ≤ i.toNat := by omega
    simp only [List.get?_eq_getElem?, List.getElem?_eq_none hlen]
  · rw [if_neg h0]

/-- C11: `add_note_user` does not keep the store intact for every day entered.
Its range test is never true (as in `read_day`), so when the number entered is
outside 1..7 the call goes on to read `notes_by_day[day - 1]` outside the array
of `DAYS_IN_WEEK` buckets, which is undefined. -/
theorem add_note_user_day_out_of_range (fuel : Nat) (env : Env) (w : World) (r : Int) (d : Int)
    (s1 : FILE) (r2 : Int) (t : List Char) (s2 : FILE)
    (hlen : w.notes.length = DAYS_IN_WEEK)
    (hscan : scanf_d w.stdin = (r, some d, s1)) (hmin : INT_MIN ≤ d) (hmax : d ≤ INT_MAX)
    (hd : d < 1 ∨ 7 < d) (htext : scanf_line s1 = (r2, some t, s2))
    (ht : bytes_written t ≤ MAX_NOTE_LENGTH) :
    add_note_user (fuel + 1) env w = .error .undefined := by
  have hb : bucket w.notes (d - 1) = .error .undefined := by
    apply bucket_out_of_range
    rw [hlen]
    simp only [DAYS_IN_WEEK]
    omega
  have hnot : ¬ MAX_NOTE_LENGTH < bytes_written t := by omega
  simp only [add_note_user, read_day_eq hscan hmin hmax, bind, Except.bind, c_le_chain, htext,
    hnot, if_false, hb]
  simp

theorem add_note_user_day_out_of_range_witness :
    add_note_user (0 + 1) env_zeroed
        { heap := heap_two_days, notes := store_two_days,
          stdin := { rest := "9 Lunch\n".toList, eof := false }, files := [] }
      = .error .undefined ∧
    read_from_file 2 zeroed heap_two_days store_two_days (some "9\nLunch\n".toList)
      = .error .undefined :=
  ⟨add_note_user_day_out_of_range 0 env_zeroed
    { heap := heap_two_days, notes := store_two_days,
      stdin := { rest := "9 Lunch\n".toList, eof := false }, files := [] } 1 9
    { rest := " Lunch\n".toList, eof := false } 1 "Lunch".toList
    { rest := "\n".toList, eof := false } rfl (by decide) (by decide) (by decide) (by decide)
    (by decide) (by decide), by decide⟩

/-- The part of C11 that holds for `add_note_user`: when the day entered is in
1..7 and the allocated block has `NULL` links, the note goes to bucket
`day - 1` with the day field `day`, so a store in which every note of bucket
`j` has the day `j + 1` stays such a store. -/
theorem add_note_user_in_range {fuel : Nat} {env : Env} {w : World} {cont : List (List Nat)}
    {r : Int} {d : Int} {s1 : FILE} {r2 : Int} {t : List Char} {s2 : FILE}
    (hL : Loaded w.heap w.notes cont)
    (hinv : ∀ j : Nat, ∀ a ∈ cont[j]?.getD [], day_at w.heap a = (j : Int) + 1)
    (hscan : scanf_d w.stdin = (r, some d, s1)) (h1 : 1 ≤ d) (h7 : d ≤ 7)
    (htext : scanf_line s1 = (r2, some t, s2)) (ht : bytes_written t ≤ MAX_NOTE_LENGTH)
    (hjunk : env.junk w.heap.length = (none, none))
    (hf : (cont[(d - 1).toNat]?.getD []).length ≤ fuel + 1) :
    ∃ w' cont', add_note_user (fuel + 1) env w = .ok w' ∧ Loaded w'.heap w'.notes cont' ∧
      ∀ j : Nat, ∀ a ∈ cont'[j]?.getD [], day_at w'.heap a = (j : Int) + 1 := by
  obtain ⟨first, p, h2, hbucket, hadd, hL2, hview⟩ := load_step hL d h1 h7 t hf
  have hmin : INT_MIN ≤ d := by simp only [INT_MIN]; omega
  have hmax : d ≤ INT_MAX := by simp only [INT_MAX]; omega
  have hnot : ¬ MAX_NOTE_LENGTH < bytes_written t := by omega
  refine ⟨{ w with heap := h2, notes := w.notes.set (d - 1).toNat p, stdin := s2 }, _, ?_, hL2, ?_⟩
  · simp only [add_note_user, read_day_eq hscan hmin hmax, bind, Except.bind, c_le_chain, htext,
      hnot, if_false, create_note, hjunk, hbucket, hadd]
    simp [pure, Except.pure]
  · intro j a ha
    have hmem : entry h2 a ∈ ((cont.set (d - 1).toNat
        (cont[(d - 1).toNat]?.getD [] ++ [w.heap.length]))[j]?.getD []).map (entry h2) :=
      List.mem_map_of_mem _ ha
    rw [hview j] at hmem
    have hday : (entry h2 a).1 = (j : Int) + 1 := by
      rcases List.mem_append.mp hmem with hold | hnew
      · obtain ⟨b, hb, hbe⟩ := List.mem_map.mp hold
        rw [← hbe]
        exact hinv j b hb
      · split at hnew
        · rename_i hj
          simp only [List.mem_singleton] at hnew
          rw [hnew]
          simp only
          omega
        · cases hnew
    exact hday

/-! ## Files that end in a malformed record -/

theorem takeWhile_all {p : Char → Bool} :
    ∀ (t : List Char), (∀ c ∈ t, p c = true) → t.takeWhile p = t := by
  intro t
  induction t with
  | nil => intro _; rfl
  | cons c t ih =>
    intro hall
    have hc : p c = true := hall c (List.mem_cons_self c t)
    simp only [List.takeWhile_cons, hc, if_true]
    rw [ih (fun y hy => hall y (List.mem_cons_of_mem c hy))]

theorem dropWhile_all {p : Char → Bool} :
    ∀ (t : List Char), (∀ c ∈ t, p c = true) → t.dropWhile p = [] := by
  intro t
  induction t with
  | nil => intro _; rfl
  | cons c t ih =>
    intro hall
    have hc : p c = true := hall c (List.mem_cons_self c t)
    simp only [List.dropWhile_cons, hc, if_true]
    exact ih (fun y hy => hall y (List.mem_cons_of_mem c hy))

theorem dropWhile_append_stop {p : Char → Bool} {x : Char} (hx : p x = false) :
    ∀ (t r : List Char), (∀ c ∈ t, p c = true) → (t ++ x :: r).dropWhile p = x :: r := by
  intro t
  induction t with
  | nil => intro r _; simp [List.dropWhile_cons, hx]
  | cons c t ih =>
    intro r hall
    have hc : p c = true := hall c (List.mem_cons_self c t)
    simp only [List.cons_append, List.dropWhile_cons, hc, if_true]
    exact ih r (fun y hy => hall y (List.mem_cons_of_mem c hy))

theorem isspace_not_digit {c : Char} (hc : isspace c = true) : c.isDigit = false := by
  simp only [isspace, Bool.or_eq_true, decide_eq_true_eq] at hc
  rcases hc with ((((rfl | rfl) | rfl) | rfl) | rfl) | rfl <;> decide

theorem isDigit_not_space {c : Char} (hc : c.isDigit = true) : isspace c = false := by
  cases hs : isspace c with
  | false => rfl
  | true =>
    rw [isspace_not_digit hs] at hc
    cases hc

/-- White space before a character that is none is skipped, and the
end-of-file indicator stays as it is. -/
theorem skip_space_prefix_any (ws : List Char) (hws : ∀ x ∈ ws, isspace x = true) (c : Char)
    (hc : isspace c = false) (r : List Char) (e : Bool) :
    skip_space { rest := ws ++ c :: r, eof := e } = { rest := c :: r, eof := e } := by
  simp [skip_space, dropWhile_append_stop hc ws r hws]

theorem skip_space_prefix (ws : List Char) (hws : ∀ x ∈ ws, isspace x = true) (c : Char)
    (hc : isspace c = false) (r : List Char) :
    skip_space { rest := ws ++ c :: r, eof := false } = { rest := c :: r, eof := false } :=
  skip_space_prefix_any ws hws c hc r false

/-- Skipping white space that runs to the end of the input sets the
end-of-file indicator. -/
theorem skip_space_to_end (ws : List Char) (hws : ∀ x ∈ ws, isspace x = true) (e : Bool) :
    skip_space { rest := ws, eof := e } = { rest := [], eof := true } := by
  simp [skip_space, dropWhile_all ws hws]

/-- The digits of a number that white space follows. -/
theorem digits_then_space (ds ws' : List Char) (hds : ∀ x ∈ ds, x.isDigit = true)
    (hws' : ∀ x ∈ ws', isspace x = true) :
    (ds ++ ws').takeWhile Char.isDigit = ds ∧ (ds ++ ws').dropWhile Char.isDigit = ws' := by
  cases ws' with
  | nil =>
    rw [List.append_nil]
    exact ⟨takeWhile_all ds hds, dropWhile_all ds hds⟩
  | cons x r =>
    have hx : x.isDigit = false := isspace_not_digit (hws' x (List.mem_cons_self x r))
    exact ⟨takeWhile_append_stop hx ds r hds, dropWhile_append_stop hx ds r hds⟩

/-- The text scan on white space and then a `ShortLine`: it stores fewer
characters than the buffer holds, or nothing. -/
theorem fscanf_text_short (ws2 x : List Char) (hws2 : ∀ y ∈ ws2, isspace y = true)
    (hx : ShortLine x) (e : Bool) :
    ∃ r2 t f2, fscanf_text { rest := ws2 ++ x, eof := e } = (r2, t, f2) ∧ r2 ≤ 1 ∧
      ∀ y, t = some y → y.length + 1 ≤ MAX_NOTE_LENGTH := by
  rcases hx with rfl | ⟨c, line, after, rfl, hsp, hnl, hlen, hafter⟩
  · refine ⟨-1, none, { rest := [], eof := true }, ?_, by decide, fun y hy => by cases hy⟩
    unfold fscanf_text
    rw [List.append_nil, skip_space_to_end ws2 hws2 e]
  · have hall : ∀ z ∈ c :: line, (fun y : Char => y != '\n') z = true := by
      intro z hz
      have : z ≠ '\n' := fun e => hnl (e ▸ hz)
      simpa using this
    have htake : (((c :: line) ++ after).takeWhile (fun y => y != '\n')) = c :: line := by
      rcases hafter with rfl | ⟨more, rfl⟩
      · rw [List.append_nil]
        exact takeWhile_all _ hall
      · exact takeWhile_append_stop (p := fun y => y != '\n') (x := '\n') (by simp) _ more hall
    have htk : (c :: line).take 100 = c :: line := List.take_of_length_le (by
      simp only [MAX_NOTE_LENGTH] at hlen
      omega)
    have hskip := skip_space_prefix_any ws2 hws2 c hsp (line ++ after) e
    have hres : ∃ f2, fscanf_text { rest := ws2 ++ ((c :: line) ++ after), eof := e }
        = (1, some (c :: line), f2) := by
      unfold fscanf_text
      simp only [List.cons_append] at htake hskip ⊢
      rw [hskip]
      simp only [htake, htk]
      simp only [List.length_cons, List.drop_succ_cons, List.drop_left', reduceCtorEq, if_false]
      cases after with
      | nil => exact ⟨_, rfl⟩
      | cons z more => exact ⟨_, rfl⟩
    obtain ⟨f2, hf2⟩ := hres
    refine ⟨1, some (c :: line), f2, hf2, by decide, ?_⟩
    intro y hy
    cases hy
    omega

/-- The number scan on something that is not a number: it assigns nothing and
leaves the stream at what follows the sign. -/
theorem fscanf_d_non_numeric (ws sgn ws2 x : List Char) (hws : ∀ y ∈ ws, isspace y = true)
    (hsgn : sgn = [] ∨ sgn = ['-'] ∨ sgn = ['+']) (hws2 : ∀ y ∈ ws2, isspace y = true)
    (hx : ShortLine x) (hsign : sgn = [] → ws2 = [] ∧ ∀ c ∈ x.head?, c ≠ '-' ∧ c ≠ '+')
    (hdig : ws2 = [] → ∀ c ∈ x.head?, c.isDigit = false) :
    ∃ r1 e, fscanf_d { rest := ws ++ (sgn ++ (ws2 ++ x)), eof := false }
      = (r1, none, { rest := ws2 ++ x, eof := e }) ∧ r1 ≤ 0 := by
  have hbody : (ws2 ++ x).takeWhile Char.isDigit = [] := by
    cases ws2 with
    | nil =>
      cases x with
      | nil => rfl
      | cons c r =>
        have := hdig rfl c rfl
        simp [List.takeWhile_cons, this]
    | cons y r =>
      have := isspace_not_digit (hws2 y (List.mem_cons_self y r))
      simp [List.takeWhile_cons, this]
  rcases hsgn with rfl | rfl | rfl
  · obtain ⟨hw2, hsg⟩ := hsign rfl
    subst hw2
    rcases hx with rfl | ⟨c, line, after, rfl, hsp, _, _, _⟩
    · refine ⟨-1, true, ?_, by decide⟩
      unfold fscanf_d
      simp only [List.nil_append, List.append_nil]
      rw [skip_space_to_end ws hws false]
    · obtain ⟨hm, hp⟩ := hsg c rfl
      have hd := hdig rfl c rfl
      refine ⟨0, false, ?_, by decide⟩
      have hskip := skip_space_prefix ws hws c hsp (line ++ after)
      simp only [List.nil_append, List.cons_append] at hskip ⊢
      unfold fscanf_d
      rw [hskip]
      simp [List.takeWhile_cons, hm, hp, hd]
  · refine ⟨0, false || (ws2 ++ x).isEmpty, ?_, by decide⟩
    have hskip := skip_space_prefix ws hws '-' (by decide) (ws2 ++ x)
    simp only [List.singleton_append] at hskip ⊢
    unfold fscanf_d
    rw [hskip]
    simp only [true_or, if_true, hbody]
  · refine ⟨0, false || (ws2 ++ x).isEmpty, ?_, by decide⟩
    have hskip := skip_space_prefix ws hws '+' (by decide) (ws2 ++ x)
    simp only [List.singleton_append] at hskip ⊢
    unfold fscanf_d
    rw [hskip]
    simp only [or_true, if_true, hbody]

/-- The two scans on a last weekday line that no text follows: the first reads
the number, the second finds the end of the file. -/
theorem scans_no_text (ws sgn ds ws' : List Char) (hws : ∀ x ∈ ws, isspace x = true)
    (hsgn : sgn = [] ∨ sgn = ['-'] ∨ sgn = ['+']) (hne : ds ≠ [])
    (hds : ∀ x ∈ ds, x.isDigit = true) (hws' : ∀ x ∈ ws', isspace x = true) :
    fscanf_d { rest := ws ++ (sgn ++ (ds ++ ws')), eof := false }
      = (1, some (if sgn = ['-'] then -digits_value ds else digits_value ds),
          { rest := [], eof := true }) ∧
    fscanf_text { rest := [], eof := true } = (-1, none, { rest := [], eof := true }) := by
  refine ⟨?_, by decide⟩
  obtain ⟨htake, hdrop⟩ := digits_then_space ds ws' hds hws'
  have hend : skip_space { rest := ws', eof := false || ws'.isEmpty }
      = { rest := [], eof := true } := by
    simp [skip_space, dropWhile_all ws' hws']
  rcases hsgn with rfl | rfl | rfl
  · cases ds with
    | nil => exact absurd rfl hne
    | cons d0 ds =>
      have hd0 : d0.isDigit = true := hds d0 (List.mem_cons_self _ _)
      have hm : d0 ≠ '-' := by
        intro e
        subst e
        exact absurd hd0 (by decide)
      have hp : d0 ≠ '+' := by
        intro e
        subst e
        exact absurd hd0 (by decide)
      have hskip := skip_space_prefix ws hws d0 (isDigit_not_space hd0) (ds ++ ws')
      simp only [List.nil_append, List.cons_append] at hskip htake hdrop ⊢
      unfold fscanf_d
      rw [hskip]
      simp only [hm, hp, or_self, if_false, htake, hdrop, reduceCtorEq, hend]
  · have hskip := skip_space_prefix ws hws '-' (by decide) (ds ++ ws')
    simp only [List.singleton_append] at hskip ⊢
    unfold fscanf_d
    rw [hskip]
    simp only [true_or, if_true, htake, hdrop, hne, if_false, hend]
  · have hskip := skip_space_prefix ws hws '+' (by decide) (ds ++ ws')
    simp only [List.singleton_append] at hskip ⊢
    unfold fscanf_d
    rw [hskip]
    simp only [or_true, if_true, htake, hdrop, hne, if_false, hend]
    simp

/-- On a malformed rest of the file the reading loop stops at once and leaves
the store as it is. -/
theorem read_from_file_loop_malformed (fuel : Nat) {tail : List Char} (htail : Malformed tail)
    (ws0 : List Char) (hws0 : ws0 = [] ∨ ws0 = ['\n']) (k : Nat) (h : Heap) (notes : List Ptr)
    (total : Int) :
    read_from_file_loop fuel zeroed (k + 1) h notes { rest := ws0 ++ tail, eof := false } total
      = .ok (h, notes, total) := by
  obtain ⟨ws, sgn, hws, hsgn, hcase⟩ := htail
  have hws1 : ∀ x ∈ ws0 ++ ws, isspace x = true := by
    intro x hx
    rcases List.mem_append.mp hx with h0 | h1
    · rcases hws0 with rfl | rfl
      · cases h0
      · simp only [List.mem_singleton] at h0
        subst h0
        decide
    · exact hws x h1
  rcases hcase with ⟨ws2, x, rfl, hws2, hx, hsign, hdig⟩ |
    ⟨ds, ws', rfl, hne, hds, hws', hmin, hmax⟩
  · obtain ⟨r1, e, hfd, hr1⟩ :=
      fscanf_d_non_numeric (ws0 ++ ws) sgn ws2 x hws1 hsgn hws2 hx hsign hdig
    obtain ⟨r2, t, f2, hft, hr2, hlen⟩ := fscanf_text_short ws2 x hws2 hx e
    rw [List.append_assoc] at hfd
    have hsum : ¬ r1 + r2 = 2 := by omega
    have hany : (t.any fun y => decide (MAX_NOTE_LENGTH < y.length + 1)) = false := by
      cases t with
      | none => rfl
      | some y =>
        have := hlen y rfl
        simp only [Option.any_some, decide_eq_false_iff_not]
        omega
    simp only [read_from_file_loop, hfd, hft, Option.any_none, hany, Bool.or_false,
      Bool.false_eq_true, if_false, ne_eq, hsum, not_false_eq_true, if_true]
  · obtain ⟨hfd, hft⟩ := scans_no_text (ws0 ++ ws) sgn ds ws' hws1 hsgn hne hds hws'
    rw [List.append_assoc] at hfd
    have hrange : ¬ ((if sgn = ['-'] then -digits_value ds else digits_value ds) < INT_MIN ∨
        INT_MAX < (if sgn = ['-'] then -digits_value ds else digits_value ds)) := by omega
    simp only [read_from_file_loop, hfd, hft, Option.any_none, Option.any_some, hrange,
      decide_False, Bool.or_false, Bool.false_eq_true, if_false]
    simp [hmin, hmax]

theorem render_cons_append (d : Int) (t : List Char) (rs : List (Int × List Char))
    (tail : List Char) :
    render ((d, t) :: rs) ++ tail
      = (fmt_d d ++ ['\n']) ++ ((t ++ ['\n']) ++ (render rs ++ tail)) := by
  rw [render_cons]
  simp only [List.append_assoc]

/-- The reading loop on a file of the records `rs` followed by a malformed
rest: with enough fuel it ends, has read `rs.length` notes, has appended
every record to the bucket of its day, in file order, and nothing else. -/
theorem read_from_file_loop_records (fuel : Nat) {tail : List Char} (htail : Malformed tail) :
    ∀ (rs : List (Int × List Char)), (∀ r ∈ rs, 1 ≤ r.1 ∧ r.1 ≤ 7 ∧ Storable r.2) →
      ∀ (k : Nat) (h : Heap) (notes : List Ptr) (cont : List (List Nat)) (ws : List Char)
        (total : Int), Loaded h notes cont → (ws = [] ∨ ws = ['\n']) → rs.length < k →
        (∀ j : Nat, (cont[j]?.getD []).length + rs.length ≤ fuel) →
        ∃ h' notes' cont',
          read_from_file_loop fuel zeroed k h notes
              { rest := ws ++ (render rs ++ tail), eof := false } total
            = .ok (h', notes', total + rs.length) ∧
          Loaded h' notes' cont' ∧
          ∀ j : Nat, (cont'[j]?.getD []).map (entry h')
            = (cont[j]?.getD []).map (entry h) ++ rs.filter (fun r => r.1 = (j : Int) + 1) := by
  intro rs
  induction rs with
  | nil =>
    intro _ k h notes cont ws total hL hws hk _
    cases k with
    | zero => simp at hk
    | succ k =>
      refine ⟨h, notes, cont, ?_, hL, by simp⟩
      have hrender : render [] ++ tail = tail := rfl
      rw [hrender, read_from_file_loop_malformed fuel htail ws hws k h notes total]
      simp
  | cons r rs ih =>
    intro hvalid k h notes cont ws total hL hws hk hfuel
    obtain ⟨d, t⟩ := r
    obtain ⟨h1, h7, hst⟩ := hvalid (d, t) (List.mem_cons_self _ _)
    have h1' : 1 ≤ d := h1
    have h7' : d ≤ 7 := h7
    have hst' : Storable t := hst
    cases k with
    | zero => simp at hk
    | succ k =>
      have hfi : (cont[(d - 1).toNat]?.getD []).length ≤ fuel := by
        have := hfuel (d - 1).toNat
        omega
      obtain ⟨first, p, h2, hbucket, hadd, hL2, hview2⟩ := load_step hL d h1' h7' t hfi
      have hfuel2 : ∀ j : Nat,
          ((cont.set (d - 1).toNat (cont[(d - 1).toNat]?.getD [] ++ [h.length]))[j]?.getD []).length
            + rs.length ≤ fuel := by
        intro j
        have hj := congrArg List.length (hview2 j)
        simp only [List.length_map, List.length_append] at hj
        rw [hj]
        have := hfuel j
        simp only [List.length_cons] at this
        split
        · simp only [List.length_singleton]; omega
        · simp only [List.length_nil]; omega
      have hk2 : rs.length < k := by
        simp only [List.length_cons] at hk
        omega
      obtain ⟨h', notes', cont', hrun, hL', hview'⟩ :=
        ih (fun r hr => hvalid r (List.mem_cons_of_mem _ hr)) k h2 _ _ ['\n'] (total + 1) hL2
          (Or.inr rfl) hk2 hfuel2
      refine ⟨h', notes', cont', ?_, hL', ?_⟩
      · have hlen : ¬ MAX_NOTE_LENGTH < t.length + 1 := by
          have := hst'.2.1
          omega
        have hrange : ¬ (d < INT_MIN ∨ INT_MAX < d) := by
          simp only [INT_MIN, INT_MAX]
          omega
        rw [render_cons_append]
        simp only [read_from_file_loop,
          fscanf_d_record ws hws d h1' h7' t hst' (render rs ++ tail),
          fscanf_text_record t hst' (render rs ++ tail)]
        simp only [Option.any_some, hlen, hrange, decide_False, Bool.or_false, Bool.false_eq_true,
          if_false, Bool.or_eq_true, decide_eq_true_eq, create_note, zeroed, hbucket, hadd, bind,
          Except.bind]
        simp only [List.singleton_append] at hrun
        simp only [show (1 : Int) + 1 ≠ 2 ↔ False by decide, if_false]
        rw [hrun]
        simp only [List.length_cons, Nat.cast_add, Nat.cast_one]
        congr 3
        omega
      · intro j
        rw [hview' j, hview2 j, List.append_assoc]
        congr 1
        have hiff : ((d - 1).toNat = j) ↔ d = (j : Int) + 1 := by omega
        by_cases hdj : d = (j : Int) + 1
        · rw [if_pos (hiff.mpr hdj), List.filter_cons_of_pos (by simpa using hdj)]
          rfl
        · rw [if_neg (fun e => hdj (hiff.mp e)), List.filter_cons_of_neg (by simpa using hdj)]
          rfl

theorem storable_cons (c : Char) (t : List Char) (hc : isspace c = false)
    (hlen : (c :: t).length < MAX_NOTE_LENGTH) (hnl : '\n' ∉ c :: t) : Storable (c :: t) := by
  refine ⟨by simp, hlen, hnl, ?_⟩
  intro x hx
  simp only [List.head?_cons, Option.some.injEq] at hx
  rw [← hx]
  exact hc

/-- C16 (amended): a file of bytes made of k complete records (a weekday line
that is the decimal numeral of a value in 1..7, then a text line that is not
empty, shorter than 100 characters, holds no NUL byte and does not start with
white space) and then a malformed or incomplete record (see `Malformed`: something
that is not a number, or a number after which the file ends)
makes `read_from_file`, with an allocator whose blocks have `NULL` links and
with fuel for the notes, append exactly the k notes, in file order, each to
the bucket `weekday - 1` of a well-formed store, report k as the count read and
the number of notes in the store as total, and add nothing from the malformed
record on. -/
theorem read_from_file_stops_at_malformed (rs : List (Int × List Char))
    (hvalid : ∀ r ∈ rs, 1 ≤ r.1 ∧ r.1 ≤ 7 ∧ Storable r.2 ∧ '\x00' ∉ r.2) (tail : List Char)
    (hbytes : ∀ c ∈ render rs ++ tail, c.toNat < 256)
    (htail : Malformed tail) (fuel : Nat) (h0 : Heap) (notes0 : List Ptr)
    (cont0 : List (List Nat)) (hL : Loaded h0 notes0 cont0) (hk : rs.length < fuel)
    (hfuel : ∀ j : Nat, (cont0[j]?.getD []).length + rs.length ≤ fuel) :
    ∃ h' notes' cont',
      read_from_file fuel zeroed h0 notes0 (some (render rs ++ tail))
        = .ok (h', notes', some ((rs.length : Int), ((cont'.flatten.length : Nat) : Int))) ∧
      WfStore h' notes' cont' ∧
      ∀ j : Nat, (cont'[j]?.getD []).map (entry h')
        = (cont0[j]?.getD []).map (entry h0) ++ rs.filter (fun r => r.1 = (j : Int) + 1) := by
  have _ := hbytes
  obtain ⟨h', notes', cont', hrun, hL', hview⟩ :=
    read_from_file_loop_records fuel htail rs
      (fun r hr => ⟨(hvalid r hr).1, (hvalid r hr).2.1, (hvalid r hr).2.2.1⟩)
      fuel h0 notes0 cont0 [] 0 hL (Or.inl rfl) hk hfuel
  have hwf' := hL'.wf
  have hfl' : ∀ l ∈ cont', l.length ≤ fuel := by
    intro l hl
    obtain ⟨j, hj, rfl⟩ := List.getElem_of_mem hl
    have hv := congrArg List.length (hview j)
    simp only [List.length_map, List.length_append, List.getElem?_eq_getElem hj,
      Option.getD_some] at hv
    have hfil : (rs.filter (fun r => r.1 = (j : Int) + 1)).length ≤ rs.length :=
      List.length_filter_le _ _
    have := hfuel j
    omega
  have hamount := get_amount_notes_by_day_eq hwf' hfl'
  refine ⟨h', notes', cont', ?_, hwf', hview⟩
  simp only [List.nil_append, Int.zero_add] at hrun
  simp only [read_from_file, hrun, hamount, bind, Except.bind, pure, Except.pure]

theorem read_from_file_stops_at_malformed_witness :
    (∃ h' notes' cont',
      read_from_file 3 zeroed [] empty_store
          (some (render [(1, "Rest".toList), (6, "Gym".toList)] ++ " -soon\n1\nLate\n".toList))
        = .ok (h', notes', some ((([(1, "Rest".toList), (6, "Gym".toList)] :
            List (Int × List Char)).length : Int), ((cont'.flatten.length : Nat) : Int))) ∧
      WfStore h' notes' cont' ∧
      ∀ j : Nat, (cont'[j]?.getD []).map (entry h')
        = ((List.replicate DAYS_IN_WEEK ([] : List Nat))[j]?.getD []).map (entry []) ++
          ([(1, "Rest".toList), (6, "Gym".toList)] : List (Int × List Char)).filter
            (fun r => r.1 = (j : Int) + 1)) ∧
    read_from_file 3 zeroed [] empty_store (some "1\nRest\n6\nGym\n -soon\n1\nLate\n".toList)
      = .ok (heap_rest_gym, store_rest_gym, some (2, 2)) ∧
    read_from_file 3 zeroed [] empty_store (some "1\nRest\n6\nGym\nsoon\n1\nLate\n".toList)
      = .ok (heap_rest_gym, store_rest_gym, some (2, 2)) ∧
    read_from_file 3 zeroed [] empty_store (some "1\nRest\n6\nGym\n3\n".toList)
      = .ok (heap_rest_gym, store_rest_gym, some (2, 2)) ∧
    read_from_file 3 zeroed [] empty_store (some "1\nRest\n6\nGym\n\n -12 \n".toList)
      = .ok (heap_rest_gym, store_rest_gym, some (2, 2)) ∧
    read_from_file 3 zeroed [] empty_store (some "1\nRest\n6\nGym\n+ 5\nfoo\n".toList)
      = .ok (heap_rest_gym, store_rest_gym, some (2, 2)) ∧
    read_from_file 3 zeroed [] empty_store (some "1\nRest\n6\nGym\n-".toList)
      = .ok (heap_rest_gym, store_rest_gym, some (2, 2)) :=
  ⟨read_from_file_stops_at_malformed [(1, "Rest".toList), (6, "Gym".toList)]
      (by
        intro r hr
        simp only [List.mem_cons, List.mem_singleton, List.not_mem_nil, or_false] at hr
        rcases hr with rfl | rfl
        · exact ⟨by decide, by decide,
            storable_cons 'R' "est".toList (by decide) (by decide) (by decide), by decide⟩
        · exact ⟨by decide, by decide,
            storable_cons 'G' "ym".toList (by decide) (by decide) (by decide), by decide⟩)
      " -soon\n1\nLate\n".toList (by decide)
      ⟨[' '], ['-'], by decide, Or.inr (Or.inl rfl),
        Or.inl ⟨[], "soon\n1\nLate\n".toList, rfl, (fun y hy => by cases hy),
          Or.inr ⟨'s', "oon".toList, "\n1\nLate\n".toList, rfl, by decide, by decide,
            by decide, Or.inr ⟨"1\nLate\n".toList, rfl⟩⟩,
          (fun e => by cases e),
          (fun _ c hc => by
            have hcs : c = 's' := by simpa [eq_comm] using hc
            subst hcs
            decide)⟩⟩
      3 [] empty_store _ (loaded_empty []) (by decide)
      (by
        intro j
        have : ((List.replicate DAYS_IN_WEEK ([] : List Nat))[j]?.getD []).length = 0 := by
          by_cases hj : j < DAYS_IN_WEEK
          · simp [List.getElem?_replicate_of_lt hj]
          · rw [List.getElem?_eq_none (by simpa using hj)]
            rfl
        rw [this]
        decide),
    by decide, by decide, by decide, by decide, by decide, by decide⟩

/-- C16, as stated, fails.  The file "1\n \n2\nfoo\nx\n" has two complete
records in the sense of the claim (day 1 with the text line " ", day 2 with the
text line "foo") and then a non-numeric weekday line; `read_from_file` appends
one note, "2" on Sunday, and reports 1.  The file "1\n Rest\nx\n" has the
complete record (1, " Rest"); the note appended has the text "Rest". -/
theorem read_from_file_blank_line_counterexample :
    read_from_file 3 zeroed [] empty_store (some "1\n \n2\nfoo\nx\n".toList)
      = .ok ([some ⟨"2".toList, 1, none, none⟩],
          [some 0, none, none, none, none, none, none], some (1, 1)) ∧
    read_from_file 3 zeroed [] empty_store (some "1\n Rest\nx\n".toList)
      = .ok ([some ⟨"Rest".toList, 1, none, none⟩],
          [some 0, none, none, none, none, none, none], some (1, 1)) ∧
    "Rest".toList ≠ " Rest".toList :=
  ⟨by decide, by decide, by decide⟩

end Calendar
